import Mathlib

/-!
Verification of the post-processing core of `ppdet/modeling/post_process.py`
(PaddleYOLO).  The Python tensor code is shallowly embedded over `ℚ`:

* `nms` / `multiclass_nms`  — the numpy greedy NMS (module-level functions);
* `DETRPostProcess.__call__` — query-based decode and top-K selection
  (`detrCall`), with the transcendental `sigmoid` / `softmax` activations
  abstracted as function parameters (they are elementwise resp. row maps,
  which is all the surrounding logic relies on);
* `BBoxPostProcess.get_pred` — split into its two stages, the fake-bbox
  batch packing (`packFake`, lines 102-123) and the rescale / clip / filter
  stage (`getPredRows`, lines 125-173, non-export path);
* `MaskPostProcess.__call__` — the batched canvas accumulation loop
  (`maskPostBatched`), with the bilinear `paste_mask` sampler abstracted as
  a function parameter (the accumulation logic is independent of the
  sampled values).

Machine floats are modelled by exact rationals; `x / 0 = 0` in `ℚ`.
-/

namespace PostProc

/-- A 5-column NMS row `[score, x1, y1, x2, y2]` (`dets` of `nms`). -/
structure Det5 where
  score : ℚ
  x1 : ℚ
  y1 : ℚ
  x2 : ℚ
  y2 : ℚ
deriving DecidableEq, Inhabited, Repr

/-- A 6-column detection row `[label, score, x1, y1, x2, y2]`. -/
structure Det6 where
  label : ℚ
  score : ℚ
  x1 : ℚ
  y1 : ℚ
  x2 : ℚ
  y2 : ℚ
deriving DecidableEq, Inhabited, Repr

/-- Drop the label column (`bboxs[idxs, 1:]` in `multiclass_nms`). -/
def Det6.toDet5 (r : Det6) : Det5 :=
  ⟨r.score, r.x1, r.y1, r.x2, r.y2⟩

/-- Prepend a label column (`np.concatenate([np.full((...,1), c), r], 1)`). -/
def Det5.withLabel (c : ℚ) (d : Det5) : Det6 :=
  ⟨c, d.score, d.x1, d.y1, d.x2, d.y2⟩

/-- Inclusive-pixel box area: `(x2 - x1 + 1) * (y2 - y1 + 1)`. -/
def Det5.area (d : Det5) : ℚ :=
  (d.x2 - d.x1 + 1) * (d.y2 - d.y1 + 1)

/-- Clamped rectangle-overlap area: `w * h` with
`w = max(0, min(ix2, x2[j]) - max(ix1, x1[j]) + 1)` and analogously `h`. -/
def interArea (a b : Det5) : ℚ :=
  max 0 (min a.x2 b.x2 - max a.x1 b.x1 + 1) * max 0 (min a.y2 b.y2 - max a.y1 b.y1 + 1)

/-- The overlap measure of the two valid metrics: intersection over union for
`"iou"`, intersection over the smaller area for `"ios"`. -/
def matchValue (metric : String) (a b : Det5) : ℚ :=
  if metric = "iou" then interArea a b / (a.area + b.area - interArea a b)
  else interArea a b / min a.area b.area

/-- The metric dispatch of the inner `nms` loop: `"iou"`, `"ios"`, or
`raise ValueError()` for anything else. -/
def matchValueE (metric : String) (a b : Det5) : Except Unit ℚ :=
  if metric = "iou" then .ok (interArea a b / (a.area + b.area - interArea a b))
  else if metric = "ios" then .ok (interArea a b / min a.area b.area)
  else .error ()

/-- Set position `i` of a suppression-flag list to `true`
(`suppressed[j] = 1`); out-of-range indices leave the list unchanged. -/
def setTrue : List Bool → Nat → List Bool
  | [], _ => []
  | _ :: l, 0 => true :: l
  | b :: l, i + 1 => b :: setTrue l i

/-- Indices `0..n-1` sorted by score descending (`scores.argsort()[::-1]`;
the tie order of numpy's unstable argsort is implementation-defined, here
realised by a stable sort). -/
def argsortDesc (scores : List ℚ) : List Nat :=
  List.insertionSort (fun a b => scores.getD b 0 ≤ scores.getD a 0) (List.range scores.length)

/-- The inner loop of `nms`: detection `di` (the current outer row) against
the not-yet-suppressed rows at the order positions `js`; an overlap at or
above `thr` suppresses `j`, an unknown metric raises. -/
def nmsInner (metric : String) (thr : ℚ) (dets : List Det5) (di : Det5) :
    List Nat → List Bool → Except Unit (List Bool)
  | [], sup => .ok sup
  | j :: js, sup =>
    if sup.getD j false then nmsInner metric thr dets di js sup
    else
      match matchValueE metric di (dets.getD j default) with
      | .error e => .error e
      | .ok mv =>
        nmsInner metric thr dets di js (if thr ≤ mv then setTrue sup j else sup)

/-- The outer greedy sweep of `nms` over the score-descending order list:
each not-yet-suppressed row suppresses its later overlapping rows. -/
def nmsSweep (metric : String) (thr : ℚ) (dets : List Det5) :
    List Nat → List Bool → Except Unit (List Bool)
  | [], sup => .ok sup
  | i :: rest, sup =>
    if sup.getD i false then nmsSweep metric thr dets rest sup
    else
      match nmsInner metric thr dets (dets.getD i default) rest sup with
      | .error e => .error e
      | .ok sup2 => nmsSweep metric thr dets rest sup2

/-- `nms(dets, match_threshold, match_metric)`: greedy single-class NMS.
Empty input returns empty; otherwise the greedy sweep runs over the
score-descending order and the unsuppressed rows are returned in ascending
original-index order (`keep = np.where(suppressed == 0)[0]; dets[keep]`). -/
def nms (dets : List Det5) (thr : ℚ) (metric : String) : Except Unit (List Det5) :=
  if dets.length = 0 then .ok []
  else
    match nmsSweep metric thr dets (argsortDesc (dets.map Det5.score))
        (List.replicate dets.length false) with
    | .error e => .error e
    | .ok sup =>
      .ok (((List.range dets.length).filter (fun k => !(sup.getD k false))).map
        (fun k => dets.getD k default))

/-- `multiclass_nms` over an explicit class list: for each class `c` with at
least one matching row, run `nms` on the label-stripped rows and prepend the
class id; classes with no rows contribute nothing. -/
def multiclassAux (bboxs : List Det6) (thr : ℚ) (metric : String) :
    List Nat → Except Unit (List (List Det6))
  | [] => .ok []
  | c :: cs =>
    let filtered := (bboxs.filter (fun r => r.label = (c : ℚ))).map Det6.toDet5
    if filtered.length = 0 then multiclassAux bboxs thr metric cs
    else
      match nms filtered thr metric with
      | .error e => .error e
      | .ok r =>
        match multiclassAux bboxs thr metric cs with
        | .error e => .error e
        | .ok rest => .ok ((r.map (Det5.withLabel (c : ℚ))) :: rest)

/-- `multiclass_nms(bboxs, num_classes, match_threshold, match_metric)`:
the per-class survivor blocks, in ascending class order. -/
def multiclass_nms (bboxs : List Det6) (num_classes : Nat) (thr : ℚ)
    (metric : String) : Except Unit (List (List Det6)) :=
  multiclassAux bboxs thr metric (List.range num_classes)

/-! ### `BBoxPostProcess.get_pred` -/

/-- The fake detection row `[0., 0.0, 0.0, 0.0, 1.0, 1.0]` substituted for an
image with zero detections: label `0`, score `0`, box `(0, 0, 1, 1)`. -/
def fake_bbox : Det6 := ⟨0, 0, 0, 0, 1, 1⟩

/-- Lines 102-123 of `BBoxPostProcess.get_pred`: walk the per-image counts,
slicing `bbox_num[i]` rows from the flat buffer (advancing `id_start`), and
substituting `fake_bbox` with count `1` for an image whose count is `0`. -/
def packFakeAux (bboxes : List Det6) : List Nat → Nat → List Det6 × List Nat
  | [], _ => ([], [])
  | n :: rest, idStart =>
    if n = 0 then
      let r := packFakeAux bboxes rest idStart
      (fake_bbox :: r.1, 1 :: r.2)
    else
      let r := packFakeAux bboxes rest (idStart + n)
      ((bboxes.drop idStart).take n ++ r.1, n :: r.2)

/-- The fake-bbox packing stage of `get_pred` (non-ONNX path). -/
def packFake (bboxes : List Det6) (bbox_num : List Nat) : List Det6 × List Nat :=
  packFakeAux bboxes bbox_num 0

/-- `origin_shape = paddle.floor(im_shape / scale_factor + 0.5)` for one
image; `im = (h, w)`, `sf = (scale_y, scale_x)`. -/
def originShapeOf (im sf : ℚ × ℚ) : ℚ × ℚ :=
  (((⌊im.1 / sf.1 + 1/2⌋ : ℤ) : ℚ), ((⌊im.2 / sf.2 + 1/2⌋ : ℤ) : ℚ))

/-- Per-row metadata of `get_pred` (lines 127-141): the origin shape and the
`(scale_y, scale_x)` factor of each row's image, expanded `bbox_num[i]`
times per image and concatenated. -/
def rowMeta (bbox_num : List Nat) (im_shape scale_factor : List (ℚ × ℚ)) :
    List ((ℚ × ℚ) × (ℚ × ℚ)) :=
  ((List.range bbox_num.length).map (fun i =>
    List.replicate (bbox_num.getD i 0)
      (originShapeOf (im_shape.getD i (0, 0)) (scale_factor.getD i (0, 0)),
        scale_factor.getD i (0, 0)))).flatten

/-- Modelled from the spec: `nonempty_bbox` lives in
`ppdet/modeling/bbox_utils`, outside this file.  The spec says "any
resulting box with zero width or height is invalid", so a row is kept
exactly when both its width and its height are positive. -/
def nonempty_bbox (x1 y1 x2 y2 : ℚ) : Bool :=
  decide (0 < x2 - x1) && decide (0 < y2 - y1)

/-- Rescale and clip one row (lines 152-166): divide each coordinate by its
axis scale factor, then clamp into `[0, origin_w] × [0, origin_h]` via
`max(min(v, bound), 0)`. -/
def rescaleClipRow (osh sf : ℚ × ℚ) (r : Det6) : Det6 :=
  ⟨r.label, r.score,
    max (min (r.x1 / sf.2) osh.2) 0, max (min (r.y1 / sf.1) osh.1) 0,
    max (min (r.x2 / sf.2) osh.2) 0, max (min (r.y2 / sf.1) osh.1) 0⟩

/-- Invalidate an empty clipped box (lines 167-171): label `-1`, score and
box coordinates unchanged. -/
def filterEmptyRow (r : Det6) : Det6 :=
  if nonempty_bbox r.x1 r.y1 r.x2 r.y2 then r
  else ⟨-1, r.score, r.x1, r.y1, r.x2, r.y2⟩

/-- Lines 125-173 of `BBoxPostProcess.get_pred` (non-ONNX path), applied
after the fake-bbox packing: rescale every row to origin coordinates with
its image's scale factor, clip to the image's origin shape, and invalidate
degenerate boxes (row count unchanged). -/
def getPredRows (bboxes : List Det6) (bbox_num : List Nat)
    (im_shape scale_factor : List (ℚ × ℚ)) : List Det6 :=
  List.zipWith (fun r m => filterEmptyRow (rescaleClipRow m.1 m.2 r))
    bboxes (rowMeta bbox_num im_shape scale_factor)

/-! ### `DETRPostProcess` -/

/-- A box in center-size format `(cx, cy, w, h)`. -/
structure BoxCS where
  cx : ℚ
  cy : ℚ
  w : ℚ
  h : ℚ
deriving DecidableEq, Inhabited, Repr

/-- A box in corner format `(x1, y1, x2, y2)`. -/
structure Box4 where
  x1 : ℚ
  y1 : ℚ
  x2 : ℚ
  y2 : ℚ
deriving DecidableEq, Inhabited, Repr

/-- Modelled from the spec: `bbox_cxcywh_to_xyxy` lives in
`ppdet/modeling/transformers`, outside this file; the spec says "convert
boxes center-size → corner format". -/
def bbox_cxcywh_to_xyxy (b : BoxCS) : Box4 :=
  ⟨b.cx - b.w / 2, b.cy - b.h / 2, b.cx + b.w / 2, b.cy + b.h / 2⟩

/-- The configuration stored by `DETRPostProcess.__init__`. -/
structure DETRConfig where
  num_classes : Nat
  num_top_queries : Nat
  dual_queries : Bool
  dual_groups : Nat
  use_focal_loss : Bool
  with_mask : Bool
  mask_threshold : ℚ
  use_avg_mask_score : Bool
  bbox_decode_type : String
deriving DecidableEq, Repr

/-- `DETRPostProcess.__init__`: `assert bbox_decode_type in ['origin', 'pad']`,
then store the configuration. -/
def mkDETRPostProcess (num_classes num_top_queries : Nat) (dual_queries : Bool)
    (dual_groups : Nat) (use_focal_loss with_mask : Bool) (mask_threshold : ℚ)
    (use_avg_mask_score : Bool) (bbox_decode_type : String) :
    Except Unit DETRConfig :=
  if bbox_decode_type = "origin" ∨ bbox_decode_type = "pad" then
    .ok ⟨num_classes, num_top_queries, dual_queries, dual_groups, use_focal_loss,
      with_mask, mask_threshold, use_avg_mask_score, bbox_decode_type⟩
  else .error ()

/-- Maximum of a score row (`scores.max(-1)` for one query). -/
def listMax (l : List ℚ) : ℚ :=
  l.foldl max l.headI

/-- First index attaining the maximum (`scores.argmax(-1)` for one query). -/
def listArgmax (l : List ℚ) : Nat :=
  l.indexOf (listMax l)

/-- Indices of the `k` largest entries, scores descending with
index-ascending tie-break (`paddle.topk(·, k)`). -/
def topkIdx (l : List ℚ) (k : Nat) : List Nat :=
  (List.insertionSort
    (fun a b => l.getD b 0 < l.getD a 0 ∨ (l.getD a 0 = l.getD b 0 ∧ a ≤ b))
    (List.range l.length)).take k

/-- Multiply a corner box by the per-axis destination scale `(sw, sh)`
(`bbox_pred *= out_shape` with `out_shape = (w, h, w, h)`). -/
def scaleBox (s : ℚ × ℚ) (b : Box4) : Box4 :=
  ⟨b.x1 * s.1, b.y1 * s.2, b.x2 * s.1, b.y2 * s.2⟩

/-- The selection block of `DETRPostProcess.__call__` (lines 254-276) for
one image.  Focal (`sigmoid`) scoring: global top-K over the flattened
query×class scores, recovering labels by `mod` and query indices by integer
division.  Softmax scoring: per-query max/argmax first, then (`useTopk`,
the tensor-level condition `scores.shape[1] > num_top_queries`) top-K over
queries only, otherwise all queries. -/
def detrSelect (cfg : DETRConfig) (scores3I : List (List ℚ)) (boxesI : List Box4)
    (useTopk : Bool) : List Det6 :=
  if cfg.use_focal_loss then
    let flat := scores3I.flatten
    (topkIdx flat cfg.num_top_queries).map (fun ix =>
      let bx := boxesI.getD (ix / cfg.num_classes) default
      ⟨((ix % cfg.num_classes : Nat) : ℚ), flat.getD ix 0, bx.x1, bx.y1, bx.x2, bx.y2⟩)
  else
    let scoresQ := scores3I.map listMax
    let labelsQ := scores3I.map listArgmax
    if useTopk then
      (topkIdx scoresQ cfg.num_top_queries).map (fun ix =>
        let bx := boxesI.getD ix default
        ⟨((labelsQ.getD ix 0 : Nat) : ℚ), scoresQ.getD ix 0, bx.x1, bx.y1, bx.x2, bx.y2⟩)
    else
      (List.range scoresQ.length).map (fun ix =>
        let bx := boxesI.getD ix default
        ⟨((labelsQ.getD ix 0 : Nat) : ℚ), scoresQ.getD ix 0, bx.x1, bx.y1, bx.x2, bx.y2⟩)

/-- `DETRPostProcess.__call__` (bbox path; the `with_mask` branch only
rescales mask logits and does not change row counts, and is omitted).  The
transcendental activations are abstracted: `sig` models `F.sigmoid`
(applied elementwise) and `sm` models a `F.softmax` row (the last, background
channel is dropped afterwards).  Returns the flat `[B*K, 6]` row table and
the per-image counts `bbox_num`; an unknown `bbox_decode_type` raises. -/
def detrCall (cfg : DETRConfig) (sig : ℚ → ℚ) (sm : List ℚ → List ℚ)
    (bboxes : List (List BoxCS)) (logits : List (List (List ℚ)))
    (im_shape scale_factor pad_shape : List (ℚ × ℚ)) :
    Except Unit (List Det6 × List Nat) :=
  let nq := (logits.headI).length
  let logits2 := if cfg.dual_queries then
    logits.map (fun per => per.take (nq / (cfg.dual_groups + 1))) else logits
  let bboxes2 := if cfg.dual_queries then
    bboxes.map (fun per => per.take (nq / (cfg.dual_groups + 1))) else bboxes
  if cfg.bbox_decode_type = "pad" ∨ cfg.bbox_decode_type = "origin" then
    let outScaleFor : Nat → ℚ × ℚ := fun i =>
      let osh := originShapeOf (im_shape.getD i (0, 0)) (scale_factor.getD i (0, 0))
      if cfg.bbox_decode_type = "pad" then
        let pad := pad_shape.getD i (0, 0)
        let im := im_shape.getD i (0, 0)
        (pad.2 / im.2 * osh.2, pad.1 / im.1 * osh.1)
      else (osh.2, osh.1)
    let boxesFor : Nat → List Box4 := fun i =>
      ((bboxes2.getD i []).map bbox_cxcywh_to_xyxy).map (scaleBox (outScaleFor i))
    let scores3For : Nat → List (List ℚ) := fun i =>
      if cfg.use_focal_loss then (logits2.getD i []).map (fun row => row.map sig)
      else (logits2.getD i []).map (fun row => (sm row).dropLast)
    let q := (logits2.headI).length
    let useTopk := decide (cfg.num_top_queries < q)
    let perImage := (List.range logits2.length).map (fun i =>
      detrSelect cfg (scores3For i) (boxesFor i) useTopk)
    .ok (perImage.flatten, List.replicate logits2.length cfg.num_top_queries)
  else .error ()

/-! ### `MaskPostProcess` (batched branch) -/

/-- Apply `f` to each element of a list together with its position
(positions starting at the accumulator). -/
def mapWithIdx {α : Type} (f : Nat → α → α) : List α → Nat → List α
  | [], _ => []
  | a :: l, i => f i a :: mapWithIdx f l (i + 1)

/-- Binarize a pasted mask: `cast(pred_mask >= binary_thresh, 'int32')`. -/
def binarizeMask (thr : ℚ) (pm : List (List (List ℚ))) : List (List (List ℤ)) :=
  pm.map (fun m => m.map (fun row => row.map (fun v => if thr ≤ v then (1 : ℤ) else 0)))

/-- `canvas2[:H, :W] = m`: overwrite the top-left `H × W` region of one
detection's 2-D canvas, leaving everything else in place. -/
def setRegion (c2 : List (List ℤ)) (H W : Nat) (m : List (List ℤ)) :
    List (List ℤ) :=
  mapWithIdx (fun r row =>
    if r < H then
      mapWithIdx (fun c v => if c < W then (m.getD r []).getD c 0 else v) row 0
    else row) c2 0

/-- `pred_result[id_start:id_start+n, :H, :W] = pred_mask`. -/
def writeDets (canvas : List (List (List ℤ))) (idStart n H W : Nat)
    (pm : List (List (List ℤ))) : List (List (List ℤ)) :=
  mapWithIdx (fun d c2 =>
    if idStart ≤ d ∧ d < idStart + n then setRegion c2 H W (pm.getD (d - idStart) [])
    else c2) canvas 0

/-- The per-image loop of the batched branch of `MaskPostProcess.__call__`
(lines 361-374): slice this image's boxes and mask logits, paste
(`pasteFn` abstracts the bilinear `paste_mask` sampler — the loop is
independent of the sampled values), binarize, and assign into the
`[0:H, 0:W]` region of this image's detection canvases. -/
def maskLoopAux
    (pasteFn : List (List (List ℚ)) → List Det6 → Nat → Nat → List (List (List ℚ)))
    (thr : ℚ) (mask_out : List (List (List ℚ))) (bboxes : List Det6) :
    List (Nat × Nat × Nat) → Nat → List (List (List ℤ)) → List (List (List ℤ))
  | [], _, canvas => canvas
  | (n, h, w) :: rest, idStart, canvas =>
    let bboxes_i := (bboxes.drop idStart).take n
    let mask_i := (mask_out.drop idStart).take n
    let pm := binarizeMask thr (pasteFn mask_i bboxes_i h w)
    maskLoopAux pasteFn thr mask_out bboxes rest (idStart + n)
      (writeDets canvas idStart n h w pm)

/-- `paddle.zeros([num_mask, max_h, max_w], dtype='int32') - 1`. -/
def initCanvas (numMask maxH maxW : Nat) : List (List (List ℤ)) :=
  List.replicate numMask (List.replicate maxH (List.replicate maxW (-1 : ℤ)))

/-- One pixel of the canvas stack. -/
def canvasCell (cv : List (List (List ℤ))) (d r c : Nat) : ℤ :=
  ((cv.getD d []).getD r []).getD c 0

/-- The batched (`not export_onnx`) branch of `MaskPostProcess.__call__`:
canvas of shape `(max h, max w)` over the batch, initialized to `-1`, then
the per-image paste loop. -/
def maskPostBatched
    (pasteFn : List (List (List ℚ)) → List Det6 → Nat → Nat → List (List (List ℚ)))
    (binary_thresh : ℚ) (mask_out : List (List (List ℚ))) (bboxes : List Det6)
    (bbox_num : List Nat) (origin_shape : List (Nat × Nat)) :
    List (List (List ℤ)) :=
  let maxH := (origin_shape.map Prod.fst).foldl max 0
  let maxW := (origin_shape.map Prod.snd).foldl max 0
  maskLoopAux pasteFn binary_thresh mask_out bboxes
    (List.zipWith (fun n hw => (n, hw.1, hw.2)) bbox_num origin_shape) 0
    (initCanvas mask_out.length maxH maxW)

/-! ### Basic lemmas: suppression flags, metrics, argsort -/

theorem length_setTrue (l : List Bool) (i : Nat) : (setTrue l i).length = l.length := by
  induction l generalizing i with
  | nil => rfl
  | cons b t ih =>
    cases i with
    | zero => rfl
    | succ j => simpa [setTrue] using ih j

theorem getD_setTrue_ne (l : List Bool) {i j : Nat} (h : j ≠ i) :
    (setTrue l i).getD j false = l.getD j false := by
  induction l generalizing i j with
  | nil => rfl
  | cons b t ih =>
    cases i with
    | zero =>
      cases j with
      | zero => exact absurd rfl h
      | succ j' => rfl
    | succ i' =>
      cases j with
      | zero => rfl
      | succ j' => simpa [setTrue, List.getD] using ih (fun hh => h (by rw [hh]))

theorem getD_setTrue_self (l : List Bool) {i : Nat} (h : i < l.length) :
    (setTrue l i).getD i false = true := by
  induction l generalizing i with
  | nil => simp at h
  | cons b t ih =>
    cases i with
    | zero => rfl
    | succ i' => simpa [setTrue, List.getD] using ih (Nat.lt_of_succ_lt_succ h)

theorem getD_setTrue_mono (l : List Bool) {i j : Nat}
    (h : l.getD j false = true) : (setTrue l i).getD j false = true := by
  rcases eq_or_ne j i with rfl | hne
  · rcases Nat.lt_or_ge j l.length with hlt | hge
    · exact getD_setTrue_self l hlt
    · have : l.getD j false = false := by
        rw [List.getD_eq_getElem?_getD, List.getElem?_eq_none (by omega)]
        rfl
      rw [this] at h; cases h
  · rw [getD_setTrue_ne l hne]; exact h

theorem matchValueE_valid {metric : String} (h : metric = "iou" ∨ metric = "ios")
    (a b : Det5) : matchValueE metric a b = .ok (matchValue metric a b) := by
  rcases h with h | h <;> subst h <;> simp [matchValueE, matchValue]

theorem matchValueE_invalid {metric : String} (h1 : metric ≠ "iou")
    (h2 : metric ≠ "ios") (a b : Det5) : matchValueE metric a b = .error () := by
  simp [matchValueE, h1, h2]

theorem interArea_comm (a b : Det5) : interArea a b = interArea b a := by
  simp [interArea, min_comm, max_comm]

theorem matchValue_comm (metric : String) (a b : Det5) :
    matchValue metric a b = matchValue metric b a := by
  unfold matchValue
  rw [interArea_comm]
  ring_nf
  rw [min_comm]

theorem matchValueE_comm (metric : String) (a b : Det5) :
    matchValueE metric a b = matchValueE metric b a := by
  unfold matchValueE
  rw [interArea_comm]
  ring_nf
  rw [min_comm]

theorem argsortDesc_perm (s : List ℚ) : List.Perm (argsortDesc s) (List.range s.length) :=
  List.perm_insertionSort _ _

theorem argsortDesc_length (s : List ℚ) : (argsortDesc s).length = s.length := by
  simpa using (argsortDesc_perm s).length_eq

theorem argsortDesc_nodup (s : List ℚ) : (argsortDesc s).Nodup :=
  ((argsortDesc_perm s).nodup_iff).mpr (List.nodup_range _)

theorem mem_argsortDesc {s : List ℚ} {k : Nat} :
    k ∈ argsortDesc s ↔ k < s.length := by
  rw [(argsortDesc_perm s).mem_iff, List.mem_range]

theorem argsortDesc_sorted (s : List ℚ) :
    List.Sorted (fun a b => s.getD b 0 ≤ s.getD a 0) (argsortDesc s) := by
  haveI ht : IsTotal Nat (fun a b => s.getD b 0 ≤ s.getD a 0) :=
    ⟨fun a b => le_total (s.getD b 0) (s.getD a 0)⟩
  haveI htr : IsTrans Nat (fun a b => s.getD b 0 ≤ s.getD a 0) :=
    ⟨fun _ _ _ h1 h2 => le_trans h2 h1⟩
  exact List.sorted_insertionSort _ _

/-! ### Invariants of the greedy suppression loops -/

theorem nmsInner_length {m : String} {t : ℚ} {d : List Det5} {di : Det5}
    {js : List Nat} {sup sup' : List Bool}
    (h : nmsInner m t d di js sup = .ok sup') : sup'.length = sup.length := by
  induction js generalizing sup with
  | nil => simp only [nmsInner] at h; cases h; rfl
  | cons j js ih =>
    simp only [nmsInner] at h
    split at h
    · exact ih h
    · split at h
      · cases h
      · split at h
        · rw [ih h, length_setTrue]
        · exact ih h

theorem nmsInner_mono {m : String} {t : ℚ} {d : List Det5} {di : Det5}
    {js : List Nat} {sup sup' : List Bool}
    (h : nmsInner m t d di js sup = .ok sup') {k : Nat}
    (hk : sup.getD k false = true) : sup'.getD k false = true := by
  induction js generalizing sup with
  | nil => simp only [nmsInner] at h; cases h; exact hk
  | cons j js ih =>
    simp only [nmsInner] at h
    split at h
    · exact ih h hk
    · split at h
      · cases h
      · split at h
        · exact ih h (getD_setTrue_mono _ hk)
        · exact ih h hk

theorem nmsInner_frame {m : String} {t : ℚ} {d : List Det5} {di : Det5}
    {js : List Nat} {sup sup' : List Bool}
    (h : nmsInner m t d di js sup = .ok sup') {k : Nat} (hk : k ∉ js) :
    sup'.getD k false = sup.getD k false := by
  induction js generalizing sup with
  | nil => simp only [nmsInner] at h; cases h; rfl
  | cons j js ih =>
    have hkj : k ≠ j := fun hh => hk (hh ▸ List.mem_cons_self j js)
    have hkjs : k ∉ js := fun hh => hk (List.mem_cons_of_mem j hh)
    simp only [nmsInner] at h
    split at h
    · exact ih h hkjs
    · split at h
      · cases h
      · split at h
        · rw [ih h hkjs, getD_setTrue_ne _ hkj]
        · exact ih h hkjs

theorem nmsInner_check {m : String} {t : ℚ} {d : List Det5} {di : Det5}
    {js : List Nat} {sup sup' : List Bool}
    (h : nmsInner m t d di js sup = .ok sup')
    (hlen : ∀ j ∈ js, j < sup.length) {j : Nat} (hj : j ∈ js)
    (hkeep : sup'.getD j false = false) :
    ∃ mv, matchValueE m di (d.getD j default) = .ok mv ∧ ¬ t ≤ mv := by
  induction js generalizing sup with
  | nil => cases hj
  | cons j0 js ih =>
    simp only [nmsInner] at h
    split at h
    · next hsup =>
      rcases List.mem_cons.mp hj with rfl | hj'
      · rw [nmsInner_mono h hsup] at hkeep; cases hkeep
      · exact ih h (fun x hx => hlen x (List.mem_cons_of_mem _ hx)) hj'
    · next hsup =>
      split at h
      · cases h
      · next mv hmv =>
        split at h
        · next hle =>
          rcases List.mem_cons.mp hj with rfl | hj'
          · have : (setTrue sup j).getD j false = true :=
              getD_setTrue_self _ (hlen j (List.mem_cons_self _ _))
            rw [nmsInner_mono h this] at hkeep; cases hkeep
          · exact ih h
              (fun x hx => by rw [length_setTrue]; exact hlen x (List.mem_cons_of_mem _ hx)) hj' 
        · next hle =>
          rcases List.mem_cons.mp hj with rfl | hj'
          · exact ⟨mv, hmv, hle⟩
          · exact ih h (fun x hx => hlen x (List.mem_cons_of_mem _ hx)) hj'

theorem nmsInner_noop {m : String} {t : ℚ} {d : List Det5} {di : Det5}
    {js : List Nat} (sup : List Bool)
    (hok : ∀ j ∈ js, ∃ mv, matchValueE m di (d.getD j default) = .ok mv ∧ ¬ t ≤ mv) :
    nmsInner m t d di js sup = .ok sup := by
  induction js with
  | nil => rfl
  | cons j0 js ih =>
    have hrest : ∀ j ∈ js, ∃ mv, matchValueE m di (d.getD j default) = .ok mv ∧ ¬ t ≤ mv :=
      fun x hx => hok x (List.mem_cons_of_mem _ hx)
    obtain ⟨mv, hmv, hle⟩ := hok j0 (List.mem_cons_self _ _)
    simp only [nmsInner]
    split
    · exact ih hrest
    · rw [hmv]
      simp only [if_neg hle]
      exact ih hrest

theorem nmsSweep_length {m : String} {t : ℚ} {d : List Det5}
    {l : List Nat} {sup sup' : List Bool}
    (h : nmsSweep m t d l sup = .ok sup') : sup'.length = sup.length := by
  induction l generalizing sup with
  | nil => simp only [nmsSweep] at h; cases h; rfl
  | cons i rest ih =>
    simp only [nmsSweep] at h
    split at h
    · exact ih h
    · split at h
      · cases h
      · next sup2 hinner => rw [ih h, nmsInner_length hinner]

theorem nmsSweep_mono {m : String} {t : ℚ} {d : List Det5}
    {l : List Nat} {sup sup' : List Bool}
    (h : nmsSweep m t d l sup = .ok sup') {k : Nat}
    (hk : sup.getD k false = true) : sup'.getD k false = true := by
  induction l generalizing sup with
  | nil => simp only [nmsSweep] at h; cases h; exact hk
  | cons i rest ih =>
    simp only [nmsSweep] at h
    split at h
    · exact ih h hk
    · split at h
      · cases h
      · next sup2 hinner => exact ih h (nmsInner_mono hinner hk)

theorem nmsSweep_frame {m : String} {t : ℚ} {d : List Det5}
    {l : List Nat} {sup sup' : List Bool}
    (h : nmsSweep m t d l sup = .ok sup') {k : Nat} (hk : k ∉ l) :
    sup'.getD k false = sup.getD k false := by
  induction l generalizing sup with
  | nil => simp only [nmsSweep] at h; cases h; rfl
  | cons i rest ih =>
    have hkrest : k ∉ rest := fun hh => hk (List.mem_cons_of_mem i hh)
    simp only [nmsSweep] at h
    split at h
    · exact ih h hkrest
    · split at h
      · cases h
      · next sup2 hinner => rw [ih h hkrest, nmsInner_frame hinner hkrest]

theorem nmsSweep_pairwise {m : String} {t : ℚ} {d : List Det5}
    {l : List Nat} {sup sup' : List Bool}
    (h : nmsSweep m t d l sup = .ok sup')
    (hlen : ∀ j ∈ l, j < sup.length) {a b : Nat}
    (hab : [a, b].Sublist l)
    (ha : sup'.getD a false = false) (hb : sup'.getD b false = false) :
    ∃ mv, matchValueE m (d.getD a default) (d.getD b default) = .ok mv ∧ ¬ t ≤ mv := by
  induction l generalizing sup with
  | nil => cases hab
  | cons c rest ih =>
    have hlenrest : ∀ j ∈ rest, j < sup.length :=
      fun x hx => hlen x (List.mem_cons_of_mem _ hx)
    simp only [nmsSweep] at h
    split at h
    · next hsup =>
      cases hab with
      | cons _ hab' => exact ih h hlenrest hab'
      | cons₂ _ hb' =>
        rw [nmsSweep_mono h hsup] at ha; cases ha
    · next hsup =>
      split at h
      · cases h
      · next sup2 hinner =>
        have hlen2 : ∀ j ∈ rest, j < sup2.length := by
          rw [nmsInner_length hinner]; exact hlenrest
        cases hab with
        | cons _ hab' => exact ih h hlen2 hab'
        | cons₂ _ hb' =>
          have hbrest : b ∈ rest := List.singleton_sublist.mp hb'
          have hb2 : sup2.getD b false = false := by
            rcases Bool.eq_false_or_eq_true (sup2.getD b false) with h2 | h2
            · rw [nmsSweep_mono h h2] at hb; cases hb
            · exact h2
          exact nmsInner_check hinner hlenrest hbrest hb2

theorem nmsSweep_noop {m : String} {t : ℚ} {d : List Det5}
    {l : List Nat} (sup : List Bool) (hnd : l.Nodup)
    (hok : ∀ a ∈ l, ∀ b ∈ l, a ≠ b →
      ∃ mv, matchValueE m (d.getD a default) (d.getD b default) = .ok mv ∧ ¬ t ≤ mv) :
    nmsSweep m t d l sup = .ok sup := by
  induction l generalizing sup with
  | nil => rfl
  | cons i rest ih =>
    have hnd' := List.nodup_cons.mp hnd
    have hinner : nmsInner m t d (d.getD i default) rest sup = .ok sup :=
      nmsInner_noop sup (fun j hj =>
        hok i (List.mem_cons_self _ _) j (List.mem_cons_of_mem _ hj)
          (fun hh => hnd'.1 (hh ▸ hj)))
    have hrest : ∀ a ∈ rest, ∀ b ∈ rest, a ≠ b →
        ∃ mv, matchValueE m (d.getD a default) (d.getD b default) = .ok mv ∧ ¬ t ≤ mv :=
      fun a ha b hb hab =>
        hok a (List.mem_cons_of_mem _ ha) b (List.mem_cons_of_mem _ hb) hab
    simp only [nmsSweep]
    split
    · exact ih sup hnd'.2 hrest
    · rw [hinner]
      exact ih sup hnd'.2 hrest

/-! ### List helpers -/

theorem getD_replicate_false (n k : Nat) :
    (List.replicate n false).getD k false = false := by
  induction n generalizing k with
  | zero => rfl
  | succ n ih =>
    cases k with
    | zero => rfl
    | succ k' => simp [List.replicate_succ, List.getD, ih k']

theorem sublist_pair_of_mem {l : List Nat} {a b : Nat} (ha : a ∈ l) (hb : b ∈ l)
    (hab : a ≠ b) : [a, b].Sublist l ∨ [b, a].Sublist l := by
  induction l with
  | nil => cases ha
  | cons c rest ih =>
    rcases List.mem_cons.mp ha with rfl | ha'
    · have hbrest : b ∈ rest := by
        rcases List.mem_cons.mp hb with rfl | hb'
        · exact absurd rfl hab
        · exact hb'
      exact Or.inl (List.Sublist.cons₂ a (List.singleton_sublist.mpr hbrest))
    · rcases List.mem_cons.mp hb with rfl | hb'
      · exact Or.inr (List.Sublist.cons₂ b (List.singleton_sublist.mpr ha'))
      · exact (ih ha' hb').imp (List.Sublist.cons c) (List.Sublist.cons c)

theorem filter_range_map_getD_sublist {α : Type} (l : List α) (d : α) (p : Nat → Bool) :
    (((List.range l.length).filter p).map (fun k => l.getD k d)).Sublist l := by
  induction l generalizing p with
  | nil => simp
  | cons a t ih =>
    have hmain : ((List.range (a :: t).length).filter p).map (fun k => (a :: t).getD k d)
        = (if p 0 then [a] else []) ++
          ((List.range t.length).filter (fun k => p (k + 1))).map (fun k => t.getD k d) := by
      rw [List.length_cons, List.range_succ_eq_map, List.filter_cons, List.filter_map]
      by_cases h0 : p 0 <;>
        simp [h0, List.map_map, Function.comp_def, List.getD_cons_succ, List.getD_cons_zero]
    rw [hmain]
    by_cases h0 : p 0
    · simpa [h0] using List.Sublist.cons₂ a (ih _)
    · simpa [h0] using List.Sublist.cons a (ih _)

theorem map_getD_range {α : Type} (l : List α) (d : α) :
    (List.range l.length).map (fun k => l.getD k d) = l := by
  induction l with
  | nil => simp
  | cons a t ih =>
    rw [List.length_cons, List.range_succ_eq_map, List.map_cons, List.map_map]
    simp only [Function.comp_def, Nat.succ_eq_add_one, List.getD_cons_succ,
      List.getD_cons_zero]
    rw [ih]

/-! ### Properties of `nms` -/

theorem nms_pairwiseE {dets out : List Det5} {thr : ℚ} {metric : String}
    (h : nms dets thr metric = .ok out) {p q : Nat}
    (hp : p < out.length) (hq : q < out.length) (hpq : p ≠ q) :
    ∃ mv, matchValueE metric (out.getD p default) (out.getD q default) = .ok mv
      ∧ ¬ thr ≤ mv := by
  unfold nms at h
  split at h
  · cases h; simp at hp
  · split at h
    · cases h
    · next sup hsweep =>
      cases h
      set n := dets.length with hn
      set keep := (List.range n).filter (fun k => !(sup.getD k false)) with hkeepdef
      have hplen : p < keep.length := by simpa using hp
      have hqlen : q < keep.length := by simpa using hq
      have hgetp : (keep.map (fun k => dets.getD k default)).getD p default
          = dets.getD (keep.getD p 0) default := by
        rw [List.getD_eq_getElem _ _ (by simpa using hp), List.getElem_map,
          List.getD_eq_getElem _ _ hplen]
      have hgetq : (keep.map (fun k => dets.getD k default)).getD q default
          = dets.getD (keep.getD q 0) default := by
        rw [List.getD_eq_getElem _ _ (by simpa using hq), List.getElem_map,
          List.getD_eq_getElem _ _ hqlen]
      set k1 := keep.getD p 0 with hk1
      set k2 := keep.getD q 0 with hk2
      have hkeepnd : keep.Nodup := List.Nodup.filter _ (List.nodup_range n)
      have hne : k1 ≠ k2 := by
        rw [hk1, hk2, List.getD_eq_getElem _ _ hplen, List.getD_eq_getElem _ _ hqlen]
        intro hh
        exact hpq ((hkeepnd.getElem_inj_iff).mp hh)
      have hk1mem : k1 ∈ keep := by
        rw [hk1, List.getD_eq_getElem _ _ hplen]; exact List.getElem_mem _
      have hk2mem : k2 ∈ keep := by
        rw [hk2, List.getD_eq_getElem _ _ hqlen]; exact List.getElem_mem _
      have hk1p := List.mem_filter.mp hk1mem
      have hk2p := List.mem_filter.mp hk2mem
      have hk1lt : k1 < n := List.mem_range.mp hk1p.1
      have hk2lt : k2 < n := List.mem_range.mp hk2p.1
      have hk1sup : sup.getD k1 false = false := by
        have := hk1p.2; rwa [Bool.not_eq_true'] at this
      have hk2sup : sup.getD k2 false = false := by
        have := hk2p.2; rwa [Bool.not_eq_true'] at this
      have hordmem1 : k1 ∈ argsortDesc (dets.map Det5.score) := by
        rw [mem_argsortDesc, List.length_map]; exact hk1lt
      have hordmem2 : k2 ∈ argsortDesc (dets.map Det5.score) := by
        rw [mem_argsortDesc, List.length_map]; exact hk2lt
      have hlensweep : ∀ j ∈ argsortDesc (dets.map Det5.score),
          j < (List.replicate n false).length := by
        intro j hj
        rw [List.length_replicate]
        have := mem_argsortDesc.mp hj
        rwa [List.length_map] at this
      rw [hgetp, hgetq]
      rcases sublist_pair_of_mem hordmem1 hordmem2 hne with hsub | hsub
      · exact nmsSweep_pairwise hsweep hlensweep hsub hk1sup hk2sup
      · obtain ⟨mv, hmv, hle⟩ := nmsSweep_pairwise hsweep hlensweep hsub hk2sup hk1sup
        exact ⟨mv, (matchValueE_comm _ _ _).trans hmv, hle⟩

theorem nms_matchValue_lt {dets out : List Det5} {thr : ℚ} {metric : String}
    (hm : metric = "iou" ∨ metric = "ios")
    (h : nms dets thr metric = .ok out) {p q : Nat}
    (hp : p < out.length) (hq : q < out.length) (hpq : p ≠ q) :
    matchValue metric (out.getD p default) (out.getD q default) < thr := by
  obtain ⟨mv, hmv, hle⟩ := nms_pairwiseE h hp hq hpq
  rw [matchValueE_valid hm] at hmv
  cases hmv
  exact lt_of_not_le hle

theorem toDet5_withLabel (c : ℚ) (d : Det5) : (Det5.withLabel c d).toDet5 = d := rfl

theorem label_withLabel (c : ℚ) (d : Det5) : (Det5.withLabel c d).label = c := rfl

theorem multiclassAux_labels {bboxs : List Det6} {thr : ℚ} {metric : String}
    {cs : List Nat} {blocks : List (List Det6)}
    (h : multiclassAux bboxs thr metric cs = .ok blocks) :
    ∀ b ∈ blocks, ∃ c ∈ cs, ∀ r ∈ b, r.label = (c : ℚ) := by
  induction cs generalizing blocks with
  | nil => cases h; simp
  | cons c cs ih =>
    simp only [multiclassAux] at h
    split at h
    · intro b hb
      obtain ⟨c', hc', hall⟩ := ih h b hb
      exact ⟨c', List.mem_cons_of_mem _ hc', hall⟩
    · split at h
      · cases h
      · next r hr =>
        split at h
        · cases h
        · next rest hrest =>
          cases h
          intro b hb
          rcases List.mem_cons.mp hb with rfl | hb'
          · refine ⟨c, List.mem_cons_self _ _, ?_⟩
            intro rr hrr
            obtain ⟨d5, _, rfl⟩ := List.mem_map.mp hrr
            rfl
          · obtain ⟨c', hc', hall⟩ := ih hrest b hb'
            exact ⟨c', List.mem_cons_of_mem _ hc', hall⟩

theorem multiclassAux_within {bboxs : List Det6} {thr : ℚ} {metric : String}
    (hm : metric = "iou" ∨ metric = "ios") {cs : List Nat} {blocks : List (List Det6)}
    (h : multiclassAux bboxs thr metric cs = .ok blocks) :
    ∀ b ∈ blocks, ∀ p q, p < b.length → q < b.length → p ≠ q →
      matchValue metric ((b.getD p default).toDet5) ((b.getD q default).toDet5) < thr := by
  induction cs generalizing blocks with
  | nil => cases h; simp
  | cons c cs ih =>
    simp only [multiclassAux] at h
    split at h
    · exact ih h
    · split at h
      · cases h
      · next r hr =>
        split at h
        · cases h
        · next rest hrest =>
          cases h
          intro b hb p q hp hq hpq
          rcases List.mem_cons.mp hb with rfl | hb'
          · have hp' : p < r.length := by simpa using hp
            have hq' : q < r.length := by simpa using hq
            have e1 : ((r.map (Det5.withLabel (c : ℚ))).getD p default).toDet5
                = r.getD p default := by
              rw [List.getD_eq_getElem _ _ (by simpa using hp), List.getElem_map,
                toDet5_withLabel, List.getD_eq_getElem _ _ hp']
            have e2 : ((r.map (Det5.withLabel (c : ℚ))).getD q default).toDet5
                = r.getD q default := by
              rw [List.getD_eq_getElem _ _ (by simpa using hq), List.getElem_map,
                toDet5_withLabel, List.getD_eq_getElem _ _ hq']
            rw [e1, e2]
            exact nms_matchValue_lt hm hr hp' hq' hpq
          · exact ih hrest b hb' p q hp hq hpq

theorem multiclassAux_pairwise_labels {bboxs : List Det6} {thr : ℚ} {metric : String}
    {cs : List Nat} {blocks : List (List Det6)}
    (hcs : cs.Pairwise (· < ·))
    (h : multiclassAux bboxs thr metric cs = .ok blocks) :
    blocks.Pairwise (fun b1 b2 => ∀ r1 ∈ b1, ∀ r2 ∈ b2, r1.label ≠ r2.label) := by
  induction cs generalizing blocks with
  | nil => cases h; exact List.Pairwise.nil
  | cons c cs ih =>
    have hcs' := List.pairwise_cons.mp hcs
    simp only [multiclassAux] at h
    split at h
    · exact ih hcs'.2 h
    · split at h
      · cases h
      · next r hr =>
        split at h
        · cases h
        · next rest hrest =>
          cases h
          refine List.pairwise_cons.mpr ⟨?_, ih hcs'.2 hrest⟩
          intro b2 hb2 r1 hr1 r2 hr2
          obtain ⟨d5, _, rfl⟩ := List.mem_map.mp hr1
          obtain ⟨c', hc', hall⟩ := multiclassAux_labels hrest b2 hb2
          rw [label_withLabel, hall r2 hr2]
          exact ne_of_lt (Nat.cast_lt.mpr (hcs'.1 c' hc'))

/-! ### Claim theorems for the NMS engine -/

/-- **C1**: with metric `"iou"` or `"ios"`, no two rows surviving `nms` have
`match_value` (intersection/union resp. intersection/min-area, inclusive
`+1` areas) at or above the threshold; hence within every per-class block of
`multiclass_nms` no two survivors overlap at or above the threshold, and two
survivors of different blocks never share a class label. -/
theorem nms_survivors_separated (thr : ℚ) (metric : String)
    (hm : metric = "iou" ∨ metric = "ios") :
    (∀ dets out, nms dets thr metric = .ok out →
      ∀ p q, p < out.length → q < out.length → p ≠ q →
        matchValue metric (out.getD p default) (out.getD q default) < thr) ∧
    (∀ bboxs num_classes blocks,
      multiclass_nms bboxs num_classes thr metric = .ok blocks →
      (∀ b ∈ blocks, ∀ p q, p < b.length → q < b.length → p ≠ q →
        matchValue metric ((b.getD p default).toDet5) ((b.getD q default).toDet5) < thr) ∧
      blocks.Pairwise (fun b1 b2 => ∀ r1 ∈ b1, ∀ r2 ∈ b2, r1.label ≠ r2.label)) := by
  constructor
  · intro dets out h p q hp hq hpq
    exact nms_matchValue_lt hm h hp hq hpq
  · intro bboxs num_classes blocks h
    exact ⟨multiclassAux_within hm h,
      multiclassAux_pairwise_labels (List.pairwise_lt_range _) h⟩

/-- Witness for C1: the spec example run, with the separation bound
evaluated on the two survivors. -/
theorem nms_survivors_separated_witness :
    ("iou" = "iou" ∨ "iou" = "ios") ∧
    nms [⟨9/10, 0, 0, 10, 10⟩, ⟨8/10, 1, 1, 11, 11⟩, ⟨95/100, 50, 50, 60, 60⟩]
      (1/2) "iou" = .ok [⟨9/10, 0, 0, 10, 10⟩, ⟨95/100, 50, 50, 60, 60⟩] ∧
    matchValue "iou" ⟨9/10, 0, 0, 10, 10⟩ ⟨95/100, 50, 50, 60, 60⟩ < 1/2 := by
  have hrun : nms [⟨9/10, 0, 0, 10, 10⟩, ⟨8/10, 1, 1, 11, 11⟩,
      ⟨95/100, 50, 50, 60, 60⟩] (1/2) "iou"
      = .ok [⟨9/10, 0, 0, 10, 10⟩, ⟨95/100, 50, 50, 60, 60⟩] := by
    norm_num [nms, nmsSweep, nmsInner, matchValueE, interArea, Det5.area,
      argsortDesc, setTrue]
    rfl
  refine ⟨Or.inl rfl, hrun, ?_⟩
  have h := (nms_survivors_separated (1/2) "iou" (Or.inl rfl)).1 _ _ hrun 0 1
    (by norm_num) (by norm_num) (by norm_num)
  simpa using h

/-- **C4 counterexample**: a non-empty (single-row) detection list with the
unknown metric `"foo"` does **not** raise — the inner comparison loop never
runs, so the metric is never inspected and the row is returned. -/
theorem nms_unknown_metric_single_no_raise :
    nms [⟨1, 0, 0, 10, 10⟩] (1/2) "foo" = .ok [⟨1, 0, 0, 10, 10⟩] ∧
    nms [⟨1, 0, 0, 10, 10⟩] (1/2) "foo" ≠ .error () := by
  have h : nms [(⟨1, 0, 0, 10, 10⟩ : Det5)] (1/2) "foo" = .ok [⟨1, 0, 0, 10, 10⟩] := by
    norm_num [nms, nmsSweep, nmsInner, matchValueE, argsortDesc]
    rfl
  exact ⟨h, by rw [h]; intro hh; cases hh⟩

/-- **C4 (amended)**: with an unknown `match_metric` the call raises exactly
when the inner comparison is reached, i.e. for every detection list with at
least two rows (with zero or one rows it returns without consulting the
metric). -/
theorem nms_unknown_metric_raises {dets : List Det5} {thr : ℚ} {metric : String}
    (h1 : metric ≠ "iou") (h2 : metric ≠ "ios") (hlen : 2 ≤ dets.length) :
    nms dets thr metric = .error () := by
  unfold nms
  rw [if_neg (by omega)]
  rcases hord : argsortDesc (dets.map Det5.score) with _ | ⟨a, rest⟩
  · have hl := argsortDesc_length (dets.map Det5.score)
    rw [hord, List.length_map] at hl
    simp at hl
    omega
  · rcases rest with _ | ⟨b, t⟩
    · have := argsortDesc_length (dets.map Det5.score)
      rw [hord] at this
      simp [List.length_map] at this
      omega
    · simp only [nmsSweep, getD_replicate_false, nmsInner,
        matchValueE_invalid h1 h2, if_false, Bool.false_eq_true]

/-- Witness for C4 (amended): two fully disjoint boxes under metric
`"bar"` raise. -/
theorem nms_unknown_metric_raises_witness :
    ("bar" ≠ "iou") ∧ ("bar" ≠ "ios") ∧
    2 ≤ ([⟨1, 0, 0, 10, 10⟩, ⟨2, 50, 50, 60, 60⟩] : List Det5).length ∧
    nms [⟨1, 0, 0, 10, 10⟩, ⟨2, 50, 50, 60, 60⟩] (1/2) "bar" = .error () := by
  refine ⟨by decide, by decide, by decide, ?_⟩
  exact nms_unknown_metric_raises (by decide) (by decide) (by decide)

/-- **C6**: the survivors of `nms` are returned as a subsequence of the
input rows — same values, ascending original-index order (not score
order). -/
theorem nms_output_sublist {dets out : List Det5} {thr : ℚ} {metric : String}
    (h : nms dets thr metric = .ok out) : out.Sublist dets := by
  unfold nms at h
  split at h
  · cases h; exact List.nil_sublist _
  · split at h
    · cases h
    · cases h; exact filter_range_map_getD_sublist dets default _

/-- Witness for C6: on the spec example the kept rows (indices 0 and 2,
although index 2 has the top score) come back in ascending index order as a
subsequence of the input. -/
theorem nms_output_sublist_witness :
    nms [⟨9/10, 0, 0, 10, 10⟩, ⟨8/10, 1, 1, 11, 11⟩, ⟨95/100, 50, 50, 60, 60⟩]
      (1/2) "iou" = .ok [⟨9/10, 0, 0, 10, 10⟩, ⟨95/100, 50, 50, 60, 60⟩] ∧
    ([⟨9/10, 0, 0, 10, 10⟩, ⟨95/100, 50, 50, 60, 60⟩] : List Det5).Sublist
      [⟨9/10, 0, 0, 10, 10⟩, ⟨8/10, 1, 1, 11, 11⟩, ⟨95/100, 50, 50, 60, 60⟩] := by
  have hrun : nms [⟨9/10, 0, 0, 10, 10⟩, ⟨8/10, 1, 1, 11, 11⟩,
      ⟨95/100, 50, 50, 60, 60⟩] (1/2) "iou"
      = .ok [⟨9/10, 0, 0, 10, 10⟩, ⟨95/100, 50, 50, 60, 60⟩] := by
    norm_num [nms, nmsSweep, nmsInner, matchValueE, interArea, Det5.area,
      argsortDesc, setTrue]
    rfl
  exact ⟨hrun, nms_output_sublist hrun⟩

/-- **C7**: `nms` is idempotent — rerunning it on its own output with the
same threshold and metric returns that output unchanged. -/
theorem nms_idempotent {dets out : List Det5} {thr : ℚ} {metric : String}
    (_hm : metric = "iou" ∨ metric = "ios")
    (h : nms dets thr metric = .ok out) : nms out thr metric = .ok out := by
  by_cases hlen : out.length = 0
  · cases out with
    | nil => rfl
    | cons a t => simp at hlen
  · unfold nms
    rw [if_neg hlen]
    have hnoop : nmsSweep metric thr out (argsortDesc (out.map Det5.score))
        (List.replicate out.length false) = .ok (List.replicate out.length false) := by
      apply nmsSweep_noop _ (argsortDesc_nodup _)
      intro a ha b hb hab
      have ha' : a < out.length := by
        have := mem_argsortDesc.mp ha; rwa [List.length_map] at this
      have hb' : b < out.length := by
        have := mem_argsortDesc.mp hb; rwa [List.length_map] at this
      exact nms_pairwiseE h ha' hb' hab
    rw [hnoop]
    show Except.ok (((List.range out.length).filter
        (fun k => !((List.replicate out.length false).getD k false))).map
        (fun k => out.getD k default)) = Except.ok out
    have hkeep : (List.range out.length).filter
        (fun k => !((List.replicate out.length false).getD k false))
        = List.range out.length := by
      apply List.filter_eq_self.mpr
      intro a _
      rw [getD_replicate_false]
      rfl
    rw [hkeep, map_getD_range]

/-- Witness for C7: rerunning `nms` on the spec-example output is a
fixpoint. -/
theorem nms_idempotent_witness :
    nms [⟨9/10, 0, 0, 10, 10⟩, ⟨8/10, 1, 1, 11, 11⟩, ⟨95/100, 50, 50, 60, 60⟩]
      (1/2) "iou" = .ok [⟨9/10, 0, 0, 10, 10⟩, ⟨95/100, 50, 50, 60, 60⟩] ∧
    nms [⟨9/10, 0, 0, 10, 10⟩, ⟨95/100, 50, 50, 60, 60⟩] (1/2) "iou"
      = .ok [⟨9/10, 0, 0, 10, 10⟩, ⟨95/100, 50, 50, 60, 60⟩] := by
  have hrun : nms [⟨9/10, 0, 0, 10, 10⟩, ⟨8/10, 1, 1, 11, 11⟩,
      ⟨95/100, 50, 50, 60, 60⟩] (1/2) "iou"
      = .ok [⟨9/10, 0, 0, 10, 10⟩, ⟨95/100, 50, 50, 60, 60⟩] := by
    norm_num [nms, nmsSweep, nmsInner, matchValueE, interArea, Det5.area,
      argsortDesc, setTrue]
    rfl
  exact ⟨hrun, nms_idempotent (Or.inl rfl) hrun⟩

/-- **C9**: for every non-empty input on which `nms` succeeds, the row at
the head of the score-descending sort order is never suppressed: it is among
the returned survivors and holds a maximal score. -/
theorem nms_top_scorer_survives {dets out : List Det5} {thr : ℚ} {metric : String}
    (h : nms dets thr metric = .ok out) (hne : dets ≠ []) :
    dets.getD ((argsortDesc (dets.map Det5.score)).headI) default ∈ out ∧
    ∀ d' ∈ dets, d'.score ≤
      (dets.getD ((argsortDesc (dets.map Det5.score)).headI) default).score := by
  have hn : dets.length ≠ 0 := fun hh => hne (List.length_eq_zero.mp hh)
  unfold nms at h
  rw [if_neg hn] at h
  rcases hord : argsortDesc (dets.map Det5.score) with _ | ⟨i0, restO⟩
  · exfalso
    have := argsortDesc_length (dets.map Det5.score)
    rw [hord, List.length_map] at this
    simp at this
    omega
  · rw [hord] at h
    split at h
    · cases h
    · next sup hsweep =>
      cases h
      have hnd := argsortDesc_nodup (dets.map Det5.score)
      rw [hord] at hnd
      have hi0notin : i0 ∉ restO := (List.nodup_cons.mp hnd).1
      have hi0mem : i0 ∈ argsortDesc (dets.map Det5.score) := by
        rw [hord]; exact List.mem_cons_self _ _
      have hi0lt : i0 < dets.length := by
        have := mem_argsortDesc.mp hi0mem
        rwa [List.length_map] at this
      simp only [nmsSweep, getD_replicate_false, Bool.false_eq_true, if_false] at hsweep
      split at hsweep
      · cases hsweep
      · next sup2 hinner =>
        have hsup2 : sup2.getD i0 false = false := by
          rw [nmsInner_frame hinner hi0notin, getD_replicate_false]
        have hsupfin : sup.getD i0 false = false := by
          rw [nmsSweep_frame hsweep hi0notin, hsup2]
        have hkeepmem : i0 ∈ (List.range dets.length).filter
            (fun k => !(sup.getD k false)) := by
          rw [List.mem_filter]
          exact ⟨List.mem_range.mpr hi0lt, by rw [hsupfin]; rfl⟩
        constructor
        · rw [show (i0 :: restO).headI = i0 from rfl]
          exact List.mem_map_of_mem _ hkeepmem
        · intro d' hd'
          rw [show (i0 :: restO).headI = i0 from rfl]
          obtain ⟨k, hk, hdk⟩ := List.mem_iff_getElem.mp hd'
          have hsorted := argsortDesc_sorted (dets.map Det5.score)
          rw [hord] at hsorted
          have hkmem : k ∈ argsortDesc (dets.map Det5.score) := by
            rw [mem_argsortDesc, List.length_map]; exact hk
          rw [hord] at hkmem
          have hscore : ∀ j, j < dets.length →
              (dets.map Det5.score).getD j 0 = (dets.getD j default).score := by
            intro j hj
            rw [List.getD_eq_getElem _ _ (by simpa using hj), List.getElem_map,
              List.getD_eq_getElem _ _ hj]
          rcases List.mem_cons.mp hkmem with rfl | hkrest
          · rw [← hdk, List.getD_eq_getElem _ _ hk]
          · have hle := List.rel_of_sorted_cons hsorted k hkrest
            rw [hscore k hk, hscore i0 hi0lt] at hle
            rw [← hdk, ← List.getD_eq_getElem _ _ hk]
            exact hle

/-- Witness for C9: in the spec example the top-scoring third row (score
`0.95`) survives and bounds every input score. -/
theorem nms_top_scorer_survives_witness :
    nms [⟨9/10, 0, 0, 10, 10⟩, ⟨8/10, 1, 1, 11, 11⟩, ⟨95/100, 50, 50, 60, 60⟩]
      (1/2) "iou" = .ok [⟨9/10, 0, 0, 10, 10⟩, ⟨95/100, 50, 50, 60, 60⟩] ∧
    ([⟨9/10, 0, 0, 10, 10⟩, ⟨8/10, 1, 1, 11, 11⟩,
        ⟨95/100, 50, 50, 60, 60⟩] : List Det5) ≠ [] ∧
    ([⟨9/10, 0, 0, 10, 10⟩, ⟨8/10, 1, 1, 11, 11⟩, ⟨95/100, 50, 50, 60, 60⟩] :
        List Det5).getD
      ((argsortDesc (([⟨9/10, 0, 0, 10, 10⟩, ⟨8/10, 1, 1, 11, 11⟩,
        ⟨95/100, 50, 50, 60, 60⟩] : List Det5).map Det5.score))).headI default
      ∈ [⟨9/10, 0, 0, 10, 10⟩, ⟨95/100, 50, 50, 60, 60⟩] := by
  have hrun : nms [⟨9/10, 0, 0, 10, 10⟩, ⟨8/10, 1, 1, 11, 11⟩,
      ⟨95/100, 50, 50, 60, 60⟩] (1/2) "iou"
      = .ok [⟨9/10, 0, 0, 10, 10⟩, ⟨95/100, 50, 50, 60, 60⟩] := by
    norm_num [nms, nmsSweep, nmsInner, matchValueE, interArea, Det5.area,
      argsortDesc, setTrue]
    rfl
  have hne : ([⟨9/10, 0, 0, 10, 10⟩, ⟨8/10, 1, 1, 11, 11⟩,
      ⟨95/100, 50, 50, 60, 60⟩] : List Det5) ≠ [] := by simp
  exact ⟨hrun, hne, (nms_top_scorer_survives hrun hne).1⟩

/-! ### Claim theorems for `BBoxPostProcess.get_pred` -/

/-- **C3 counterexample**: the sentinel row inserted for an empty image is
`[0., 0., 0., 0., 1., 1.]`, i.e. label `0`, score `0`, box `(0, 0, 1, 1)`;
its score is `0`, not `1` as claimed. -/
theorem packFake_sentinel_score_not_one :
    (packFake [] [0]).1 = [fake_bbox] ∧ fake_bbox.score = 0 ∧
    ¬ ((packFake [] [0]).1.getD 0 default).score = 1 := by
  refine ⟨rfl, rfl, ?_⟩
  show ¬ (0 : ℚ) = 1
  norm_num

theorem packFakeAux_spec (bboxes : List Det6) (cnts : List Nat) (s : Nat)
    (hsum : s + cnts.sum ≤ bboxes.length) :
    ∃ blocks : List (List Det6),
      (packFakeAux bboxes cnts s).1 = blocks.flatten ∧
      blocks.length = cnts.length ∧
      (packFakeAux bboxes cnts s).2 = cnts.map (fun n => if n = 0 then 1 else n) ∧
      (∀ i, i < cnts.length → cnts.getD i 0 = 0 → blocks.getD i [] = [fake_bbox]) ∧
      (∀ i, i < cnts.length → (blocks.getD i []).length
        = if cnts.getD i 0 = 0 then 1 else cnts.getD i 0) ∧
      (packFakeAux bboxes cnts s).1.length = (packFakeAux bboxes cnts s).2.sum := by
  induction cnts generalizing s with
  | nil => exact ⟨[], rfl, rfl, rfl, by simp, by simp, rfl⟩
  | cons n rest ih =>
    by_cases hn : n = 0
    · subst hn
      obtain ⟨blocks, h1, h2, h3, h4, h5, h6⟩ := ih s (by simpa using hsum)
      refine ⟨[fake_bbox] :: blocks, ?_, ?_, ?_, ?_, ?_, ?_⟩
      · simp [packFakeAux, h1]
      · simp [h2]
      · simp [packFakeAux, h3]
      · intro i hi h0
        cases i with
        | zero => rfl
        | succ i' => exact h4 i' (by simpa using hi) (by simpa using h0)
      · intro i hi
        cases i with
        | zero => rfl
        | succ i' => simpa using h5 i' (by simpa using hi)
      · simp [packFakeAux, h6, Nat.add_comm]
    · obtain ⟨blocks, h1, h2, h3, h4, h5, h6⟩ := ih (s + n)
        (by simp only [List.sum_cons] at hsum; omega)
      have htake : ((bboxes.drop s).take n).length = n := by
        rw [List.length_take, List.length_drop]
        simp only [List.sum_cons] at hsum
        omega
      refine ⟨(bboxes.drop s).take n :: blocks, ?_, ?_, ?_, ?_, ?_, ?_⟩
      · simp only [packFakeAux, if_neg hn, List.flatten_cons, h1]
      · simp [h2]
      · simp only [packFakeAux, if_neg hn, h3, List.map_cons, if_neg hn]
      · intro i hi h0
        cases i with
        | zero => exact absurd (by simpa using h0) hn
        | succ i' => exact h4 i' (by simpa using hi) (by simpa using h0)
      · intro i hi
        cases i with
        | zero => simpa [hn] using htake
        | succ i' => simpa using h5 i' (by simpa using hi)
      · simp only [packFakeAux, if_neg hn, List.length_append, List.sum_cons, h6, htake]

/-- **C3 (amended)**: in the non-export path of `get_pred`, whenever the
incoming counts fit in the buffer, each image with count `0` is replaced by
exactly one sentinel row `fake_bbox = [0, 0, 0, 0, 1, 1]` (label `0`,
score `0`, box `(0, 0, 1, 1)` — not score `1` with a degenerate box) with
per-image count `1`; no image contributes zero rows, and the sum of the
output per-image counts equals the number of output rows. -/
theorem packFake_spec (bboxes : List Det6) (bbox_num : List Nat)
    (hsum : bbox_num.sum ≤ bboxes.length) :
    ∃ blocks : List (List Det6),
      (packFake bboxes bbox_num).1 = blocks.flatten ∧
      blocks.length = bbox_num.length ∧
      (packFake bboxes bbox_num).2 = bbox_num.map (fun n => if n = 0 then 1 else n) ∧
      (∀ i, i < bbox_num.length → bbox_num.getD i 0 = 0 →
        blocks.getD i [] = [fake_bbox]) ∧
      (∀ i, i < bbox_num.length → (blocks.getD i []).length
        = if bbox_num.getD i 0 = 0 then 1 else bbox_num.getD i 0) ∧
      (packFake bboxes bbox_num).1.length = (packFake bboxes bbox_num).2.sum :=
  packFakeAux_spec bboxes bbox_num 0 (by simpa using hsum)

/-- Witness for C3 (amended): one real row plus one empty image — the empty
image gets the sentinel with count `1` and the packed counts sum to the
packed row count. -/
theorem packFake_spec_witness :
    ([1, 0] : List Nat).sum ≤ ([⟨3, 1, 0, 0, 5, 5⟩] : List Det6).length ∧
    (packFake [⟨3, 1, 0, 0, 5, 5⟩] [1, 0]).2 = [1, 1] ∧
    (packFake [⟨3, 1, 0, 0, 5, 5⟩] [1, 0]).1.length
      = (packFake [⟨3, 1, 0, 0, 5, 5⟩] [1, 0]).2.sum := by
  obtain ⟨blocks, h1, h2, h3, h4, h5, h6⟩ :=
    packFake_spec [⟨3, 1, 0, 0, 5, 5⟩] [1, 0] (by decide)
  refine ⟨by decide, ?_, h6⟩
  rw [h3]
  rfl

theorem rowMeta_length (cnts : List Nat) (im sf : List (ℚ × ℚ)) :
    (rowMeta cnts im sf).length = cnts.sum := by
  unfold rowMeta
  rw [List.length_flatten, List.map_map]
  simp only [Function.comp_def, List.length_replicate]
  rw [map_getD_range]

theorem getPredRows_getD (bboxes : List Det6) (cnts : List Nat)
    (im sf : List (ℚ × ℚ)) {p : Nat}
    (hp : p < (getPredRows bboxes cnts im sf).length) :
    (getPredRows bboxes cnts im sf).getD p default
      = filterEmptyRow
          (rescaleClipRow ((rowMeta cnts im sf).getD p ((0, 0), (0, 0))).1
            ((rowMeta cnts im sf).getD p ((0, 0), (0, 0))).2
            (bboxes.getD p default)) := by
  unfold getPredRows at hp ⊢
  rw [List.getD_eq_getElem _ _ hp, List.getElem_zipWith]
  rw [List.length_zipWith] at hp
  rw [List.getD_eq_getElem _ _ (lt_of_lt_of_le hp (min_le_left _ _)),
    List.getD_eq_getElem _ _ (lt_of_lt_of_le hp (min_le_right _ _))]

theorem filterEmptyRow_empty {r : Det6}
    (h : nonempty_bbox r.x1 r.y1 r.x2 r.y2 = false) :
    filterEmptyRow r = ⟨-1, r.score, r.x1, r.y1, r.x2, r.y2⟩ := by
  unfold filterEmptyRow
  rw [h]
  rfl

theorem clipped_bounds (a b ow : ℚ)
    (hx : 0 < max (min b ow) 0 - max (min a ow) 0) :
    0 ≤ max (min a ow) 0 ∧ max (min a ow) 0 ≤ max (min b ow) 0 ∧
      max (min b ow) 0 ≤ ow := by
  have h0a : 0 ≤ max (min a ow) 0 := le_max_right _ _
  have hab : max (min a ow) 0 ≤ max (min b ow) 0 := by linarith
  have hbpos : 0 < max (min b ow) 0 := by linarith
  have hminpos : 0 < min b ow := by
    rcases lt_max_iff.mp hbpos with h | h
    · exact h
    · exact absurd h (lt_irrefl 0)
  have howpos : 0 < ow := lt_of_lt_of_le hminpos (min_le_right _ _)
  exact ⟨h0a, hab, max_le (min_le_right _ _) (le_of_lt howpos)⟩

/-- **C5**: in the non-ONNX path of `get_pred` (after the fake-bbox
packing), the output has exactly one row per input row; each output row is
the input row rescaled by its image's scale factor, clipped to the image's
origin shape, and label-masked; every row either satisfies
`0 ≤ x1 ≤ x2 ≤ origin_w` and `0 ≤ y1 ≤ y2 ≤ origin_h` for its own image or
carries label `-1`; and a row whose clipped box has no positive width or
height keeps its score and clipped coordinates, only its label is set to
`-1`. -/
theorem getPredRows_spec (bboxes : List Det6) (bbox_num : List Nat)
    (im_shape scale_factor : List (ℚ × ℚ)) (out : List Det6)
    (meta : List ((ℚ × ℚ) × (ℚ × ℚ)))
    (hout : out = getPredRows bboxes bbox_num im_shape scale_factor)
    (hmeta : meta = rowMeta bbox_num im_shape scale_factor)
    (hsum : bbox_num.sum = bboxes.length) :
    out.length = bboxes.length ∧
    (∀ p, p < out.length →
      out.getD p default
        = filterEmptyRow (rescaleClipRow (meta.getD p ((0, 0), (0, 0))).1
            (meta.getD p ((0, 0), (0, 0))).2 (bboxes.getD p default))) ∧
    (∀ p, p < out.length →
      (out.getD p default).label = -1 ∨
      (0 ≤ (out.getD p default).x1 ∧
        (out.getD p default).x1 ≤ (out.getD p default).x2 ∧
        (out.getD p default).x2 ≤ (meta.getD p ((0, 0), (0, 0))).1.2 ∧
        0 ≤ (out.getD p default).y1 ∧
        (out.getD p default).y1 ≤ (out.getD p default).y2 ∧
        (out.getD p default).y2 ≤ (meta.getD p ((0, 0), (0, 0))).1.1)) ∧
    (∀ r : Det6, nonempty_bbox r.x1 r.y1 r.x2 r.y2 = false →
      filterEmptyRow r = ⟨-1, r.score, r.x1, r.y1, r.x2, r.y2⟩) := by
  subst hout hmeta
  have hlen : (getPredRows bboxes bbox_num im_shape scale_factor).length
      = bboxes.length := by
    unfold getPredRows
    rw [List.length_zipWith, rowMeta_length, hsum, min_self]
  refine ⟨hlen, fun p hp => getPredRows_getD bboxes bbox_num im_shape scale_factor hp,
    ?_, fun r h => filterEmptyRow_empty h⟩
  intro p hp
  rw [getPredRows_getD bboxes bbox_num im_shape scale_factor hp]
  set c := rescaleClipRow
    ((rowMeta bbox_num im_shape scale_factor).getD p ((0, 0), (0, 0))).1
    ((rowMeta bbox_num im_shape scale_factor).getD p ((0, 0), (0, 0))).2
    (bboxes.getD p default) with hc
  rcases Bool.eq_false_or_eq_true (nonempty_bbox c.x1 c.y1 c.x2 c.y2) with hne | hne
  · right
    have hpos : 0 < c.x2 - c.x1 ∧ 0 < c.y2 - c.y1 := by
      have hh := hne
      unfold nonempty_bbox at hh
      simp only [Bool.and_eq_true, decide_eq_true_eq] at hh
      exact hh
    have hrow : filterEmptyRow c = c := by
      unfold filterEmptyRow
      rw [hne]
      rfl
    rw [hrow]
    have hxb := clipped_bounds
      ((bboxes.getD p default).x1
        / ((rowMeta bbox_num im_shape scale_factor).getD p ((0, 0), (0, 0))).2.2)
      ((bboxes.getD p default).x2
        / ((rowMeta bbox_num im_shape scale_factor).getD p ((0, 0), (0, 0))).2.2)
      (((rowMeta bbox_num im_shape scale_factor).getD p ((0, 0), (0, 0))).1.2)
      hpos.1
    have hyb := clipped_bounds
      ((bboxes.getD p default).y1
        / ((rowMeta bbox_num im_shape scale_factor).getD p ((0, 0), (0, 0))).2.1)
      ((bboxes.getD p default).y2
        / ((rowMeta bbox_num im_shape scale_factor).getD p ((0, 0), (0, 0))).2.1)
      (((rowMeta bbox_num im_shape scale_factor).getD p ((0, 0), (0, 0))).1.1)
      hpos.2
    exact ⟨hxb.1, hxb.2.1, hxb.2.2, hyb.1, hyb.2.1, hyb.2.2⟩
  · left
    rw [filterEmptyRow_empty hne]

/-- Witness for C5: two rows, one clipping inside the image and one
degenerating to a point (which gets label `-1`); the row count is
preserved. -/
theorem getPredRows_spec_witness :
    ([2] : List Nat).sum = ([⟨0, 1, 2, 2, 8, 8⟩, ⟨1, 1, 5, 5, 5, 5⟩] : List Det6).length ∧
    (getPredRows [⟨0, 1, 2, 2, 8, 8⟩, ⟨1, 1, 5, 5, 5, 5⟩] [2]
      [(4, 4)] [(1/2, 1/2)]).length = 2 := by
  have h := getPredRows_spec [⟨0, 1, 2, 2, 8, 8⟩, ⟨1, 1, 5, 5, 5, 5⟩] [2]
    [(4, 4)] [(1/2, 1/2)] _ _ rfl rfl (by decide)
  exact ⟨by decide, h.1.trans rfl⟩

/-! ### Claim theorems for `DETRPostProcess` -/

theorem topkIdx_length (l : List ℚ) (k : Nat) :
    (topkIdx l k).length = min k l.length := by
  unfold topkIdx
  rw [List.length_take]
  congr 1
  simp [(List.perm_insertionSort _ (List.range l.length)).length_eq]

theorem flatten_length_uniform {α : Type} {L : List (List α)} {k : Nat}
    (h : ∀ x ∈ L, x.length = k) : L.flatten.length = L.length * k := by
  induction L with
  | nil => simp
  | cons a t ih =>
    rw [List.flatten_cons, List.length_append,
      ih (fun x hx => h x (List.mem_cons_of_mem _ hx)),
      h a (List.mem_cons_self _ _), List.length_cons]
    ring

theorem detrSelect_length_focal (cfg : DETRConfig) (scores3I : List (List ℚ))
    (boxesI : List Box4) (useTopk : Bool) (hf : cfg.use_focal_loss = true)
    (hk : cfg.num_top_queries ≤ scores3I.flatten.length) :
    (detrSelect cfg scores3I boxesI useTopk).length = cfg.num_top_queries := by
  simp only [detrSelect, hf, if_true]
  rw [List.length_map, topkIdx_length]
  omega

theorem detrSelect_length_soft_topk (cfg : DETRConfig) (scores3I : List (List ℚ))
    (boxesI : List Box4) (hf : cfg.use_focal_loss = false)
    (hk : cfg.num_top_queries ≤ scores3I.length) :
    (detrSelect cfg scores3I boxesI true).length = cfg.num_top_queries := by
  simp only [detrSelect, hf, Bool.false_eq_true, if_false, if_true]
  rw [List.length_map, topkIdx_length, List.length_map]
  omega

theorem detrSelect_length_soft_all (cfg : DETRConfig) (scores3I : List (List ℚ))
    (boxesI : List Box4) (hf : cfg.use_focal_loss = false) :
    (detrSelect cfg scores3I boxesI false).length = scores3I.length := by
  simp only [detrSelect, hf, Bool.false_eq_true, if_false]
  rw [List.length_map, List.length_range, List.length_map]

/-- The successful result of `detrCall` with `dual_queries` off and a valid
decode type, written out explicitly. -/
theorem detrCall_eq_ok (cfg : DETRConfig) (sig : ℚ → ℚ) (sm : List ℚ → List ℚ)
    (bboxes : List (List BoxCS)) (logits : List (List (List ℚ)))
    (im_shape scale_factor pad_shape : List (ℚ × ℚ))
    (hdt : cfg.bbox_decode_type = "pad" ∨ cfg.bbox_decode_type = "origin")
    (hdual : cfg.dual_queries = false) :
    detrCall cfg sig sm bboxes logits im_shape scale_factor pad_shape
      = .ok (((List.range logits.length).map (fun i =>
          detrSelect cfg
            (if cfg.use_focal_loss then
                (logits.getD i []).map (fun row => row.map sig)
              else (logits.getD i []).map (fun row => (sm row).dropLast))
            (((bboxes.getD i []).map bbox_cxcywh_to_xyxy).map (scaleBox
              (if cfg.bbox_decode_type = "pad" then
                  ((pad_shape.getD i (0, 0)).2 / (im_shape.getD i (0, 0)).2
                      * (originShapeOf (im_shape.getD i (0, 0))
                          (scale_factor.getD i (0, 0))).2,
                    (pad_shape.getD i (0, 0)).1 / (im_shape.getD i (0, 0)).1
                      * (originShapeOf (im_shape.getD i (0, 0))
                          (scale_factor.getD i (0, 0))).1)
                else ((originShapeOf (im_shape.getD i (0, 0))
                        (scale_factor.getD i (0, 0))).2,
                  (originShapeOf (im_shape.getD i (0, 0))
                    (scale_factor.getD i (0, 0))).1))))
            (decide (cfg.num_top_queries < (logits.headI).length)))).flatten,
        List.replicate logits.length cfg.num_top_queries) := by
  rcases hdt with hdt | hdt <;> simp [detrCall, hdual, hdt]

/-- **C2 counterexample**: softmax scoring with `Q = 1` query and
`K = num_top_queries = 2`: the single image contributes only `1` output row
(`[0, 1, 0, 0, 4, 4]`), while the reported per-image count is `2` — so
"every image contributes exactly `K` rows, for any number of queries `Q`"
fails for `Q < K`. -/
theorem detrCall_row_count_counterexample :
    detrCall ⟨1, 2, false, 0, false, false, 0, false, "origin"⟩ id id
        [[⟨1/2, 1/2, 1, 1⟩]] [[[1, 0]]] [(4, 4)] [(1, 1)] [(4, 4)]
      = .ok ([⟨0, 1, 0, 0, 4, 4⟩], [2]) ∧
    ([⟨0, 1, 0, 0, 4, 4⟩] : List Det6).length = 1 ∧ (1 : Nat) ≠ 2 := by
  refine ⟨?_, rfl, by decide⟩
  norm_num [detrCall, detrSelect, listMax, listArgmax, topkIdx, originShapeOf,
    bbox_cxcywh_to_xyxy, scaleBox, List.range_succ]

/-- **C2 (amended)**: under coherent tensor shapes (`Q` queries per image,
`CH` score channels), every image contributes exactly
`K = num_top_queries` output rows and the reported per-image count is `K`
for every image, **provided** the selection pool is at least `K`: `K ≤ Q`
in softmax mode (otherwise each image contributes only `Q` rows while the
count still reports `K`), resp. `K ≤ Q·CH` in sigmoid/focal mode. -/
theorem detrCall_exact_topk (cfg : DETRConfig) (sig : ℚ → ℚ) (sm : List ℚ → List ℚ)
    (bboxes : List (List BoxCS)) (logits : List (List (List ℚ)))
    (im_shape scale_factor pad_shape : List (ℚ × ℚ)) (Q CH : Nat)
    (hdec : cfg.bbox_decode_type = "origin" ∨ cfg.bbox_decode_type = "pad")
    (hdual : cfg.dual_queries = false)
    (hlq : ∀ per ∈ logits, per.length = Q)
    (hlch : ∀ per ∈ logits, ∀ row ∈ per, row.length = CH)
    (hfocal : cfg.use_focal_loss = true → cfg.num_top_queries ≤ Q * CH)
    (hsoft : cfg.use_focal_loss = false → cfg.num_top_queries ≤ Q) :
    ∃ rows, detrCall cfg sig sm bboxes logits im_shape scale_factor pad_shape
        = .ok (rows, List.replicate logits.length cfg.num_top_queries) ∧
      rows.length = logits.length * cfg.num_top_queries := by
  rw [detrCall_eq_ok cfg sig sm bboxes logits im_shape scale_factor pad_shape
    (Or.symm hdec) hdual]
  refine ⟨_, rfl, ?_⟩
  rw [flatten_length_uniform ?_, List.length_map, List.length_range]
  intro x hx
  obtain ⟨i, hi, rfl⟩ := List.mem_map.mp hx
  have hiB : i < logits.length := List.mem_range.mp hi
  have hper : logits.getD i [] ∈ logits := by
    rw [List.getD_eq_getElem _ _ hiB]
    exact List.getElem_mem _
  rcases Bool.eq_false_or_eq_true cfg.use_focal_loss with hf | hf
  · -- focal / sigmoid branch
    rw [if_pos hf]
    apply detrSelect_length_focal cfg _ _ _ hf
    have hflatlen : ((logits.getD i []).map (fun row => row.map sig)).flatten.length
        = Q * CH := by
      rw [flatten_length_uniform ?_, List.length_map, hlq _ hper]
      intro row hrow
      obtain ⟨row0, hrow0, rfl⟩ := List.mem_map.mp hrow
      rw [List.length_map]
      exact hlch _ hper row0 hrow0
    rw [hflatlen]
    exact hfocal hf
  · -- softmax branch
    rw [if_neg (by rw [hf]; exact Bool.false_ne_true)]
    have hheadQ : (logits.headI).length = Q := by
      have hlne : logits ≠ [] := by
        intro hh
        rw [hh] at hiB
        simp at hiB
      cases logits with
      | nil => exact absurd rfl hlne
      | cons a t => exact hlq a (List.mem_cons_self _ _)
    by_cases hq : cfg.num_top_queries < (logits.headI).length
    · rw [decide_eq_true hq]
      apply detrSelect_length_soft_topk cfg _ _ hf
      rw [List.length_map, hlq _ hper]
      rw [hheadQ] at hq
      omega
    · rw [decide_eq_false hq]
      rw [detrSelect_length_soft_all cfg _ _ hf, List.length_map, hlq _ hper]
      rw [hheadQ] at hq
      have := hsoft hf
      omega

/-- Witness for C2 (amended): one image, two queries, two channels, softmax
mode with `K = 1 ≤ Q = 2`: one output row, count `[1]`. -/
theorem detrCall_exact_topk_witness :
    (⟨1, 1, false, 0, false, false, 0, false, "origin"⟩ : DETRConfig).bbox_decode_type
        = "origin" ∧
    ∃ rows, detrCall ⟨1, 1, false, 0, false, false, 0, false, "origin"⟩ id id
        [[⟨1/2, 1/2, 1, 1⟩, ⟨1/4, 1/4, 1/2, 1/2⟩]] [[[1, 0], [0, 1]]]
        [(4, 4)] [(1, 1)] [(4, 4)]
        = .ok (rows, List.replicate 1 1) ∧ rows.length = 1 * 1 := by
  refine ⟨rfl, ?_⟩
  exact detrCall_exact_topk ⟨1, 1, false, 0, false, false, 0, false, "origin"⟩ id id
    [[⟨1/2, 1/2, 1, 1⟩, ⟨1/4, 1/4, 1/2, 1/2⟩]] [[[1, 0], [0, 1]]]
    [(4, 4)] [(1, 1)] [(4, 4)] 2 2 (Or.inl rfl) rfl
    (by intro per hper; cases hper with
      | head => rfl
      | tail _ hh => cases hh)
    (by intro per hper row hrow
        cases hper with
        | head =>
          cases hrow with
          | head => rfl
          | tail _ hh =>
            cases hh with
            | head => rfl
            | tail _ hhh => cases hhh
        | tail _ hh => cases hh)
    (by intro hh; cases hh)
    (by intro _; decide)

/-- **C10**: a successfully constructed `DETRPostProcess` (whose constructor
asserts `bbox_decode_type ∈ {origin, pad}`) can never reach the
`Wrong bbox_decode_type` raise in `__call__`: the call never returns the
error, whatever the inputs. -/
theorem detrCall_never_decode_raise (nc k : Nat) (dq : Bool) (dg : Nat)
    (fl wm : Bool) (mt : ℚ) (av : Bool) (bdt : String) (cfg : DETRConfig)
    (h : mkDETRPostProcess nc k dq dg fl wm mt av bdt = .ok cfg)
    (sig : ℚ → ℚ) (sm : List ℚ → List ℚ) (bboxes : List (List BoxCS))
    (logits : List (List (List ℚ)))
    (im_shape scale_factor pad_shape : List (ℚ × ℚ)) :
    detrCall cfg sig sm bboxes logits im_shape scale_factor pad_shape
      ≠ .error () := by
  unfold mkDETRPostProcess at h
  split at h
  · next hcond =>
    cases h
    simp only [detrCall]
    rw [if_pos (Or.symm hcond)]
    simp
  · cases h

/-- Witness for C10: a concrete constructed configuration and a concrete
(empty-batch) call that does not error. -/
theorem detrCall_never_decode_raise_witness :
    mkDETRPostProcess 80 100 false 0 false false (1/2) false "origin"
      = .ok ⟨80, 100, false, 0, false, false, 1/2, false, "origin"⟩ ∧
    detrCall ⟨80, 100, false, 0, false, false, 1/2, false, "origin"⟩ id id
      [] [] [] [] [] ≠ .error () := by
  have hmk : mkDETRPostProcess 80 100 false 0 false false (1/2) false "origin"
      = .ok ⟨80, 100, false, 0, false, false, 1/2, false, "origin"⟩ := by
    simp [mkDETRPostProcess]
  exact ⟨hmk, detrCall_never_decode_raise _ _ _ _ _ _ _ _ _ _ hmk id id [] [] [] [] []⟩

/-! ### Claim theorems for `MaskPostProcess` -/

theorem getD_eq_default_of_le {α : Type} (l : List α) (d : α) {k : Nat}
    (h : l.length ≤ k) : l.getD k d = d := by
  rw [List.getD_eq_getElem?_getD, List.getElem?_eq_none h]
  rfl

theorem length_mapWithIdx {α : Type} (f : Nat → α → α) (l : List α) (i0 : Nat) :
    (mapWithIdx f l i0).length = l.length := by
  induction l generalizing i0 with
  | nil => rfl
  | cons a t ih => simp [mapWithIdx, ih]

theorem getD_mapWithIdx {α : Type} (f : Nat → α → α) (l : List α) (i0 k : Nat)
    (d : α) (hk : k < l.length) :
    (mapWithIdx f l i0).getD k d = f (i0 + k) (l.getD k d) := by
  induction l generalizing i0 k with
  | nil => simp at hk
  | cons a t ih =>
    cases k with
    | zero => simp [mapWithIdx]
    | succ k' =>
      simp only [mapWithIdx, List.getD_cons_succ]
      rw [ih _ _ (by simpa using hk)]
      congr 1
      omega

theorem setRegion_cell_out (c2 : List (List ℤ)) (H W : Nat) (m : List (List ℤ))
    (r c : Nat) (hrc : H ≤ r ∨ W ≤ c) :
    ((setRegion c2 H W m).getD r []).getD c 0 = (c2.getD r []).getD c 0 := by
  unfold setRegion
  by_cases hr : r < c2.length
  · rw [getD_mapWithIdx _ _ _ _ _ hr, Nat.zero_add]
    rcases hrc with hH | hW
    · rw [if_neg (by omega)]
    · by_cases hrH : r < H
      · rw [if_pos hrH]
        by_cases hc : c < (c2.getD r []).length
        · rw [getD_mapWithIdx _ _ _ _ _ hc, Nat.zero_add, if_neg (by omega)]
        · have h1 : (mapWithIdx (fun c v => if c < W then (m.getD r []).getD c 0 else v)
              (c2.getD r []) 0).getD c 0 = 0 :=
            getD_eq_default_of_le _ _ (by rw [length_mapWithIdx]; omega)
          have h2 : (c2.getD r []).getD c 0 = 0 :=
            getD_eq_default_of_le _ _ (by omega)
          rw [h1, h2]
      · rw [if_neg hrH]
  · have h1 : (mapWithIdx (fun r0 row =>
        if r0 < H then
          mapWithIdx (fun c0 v => if c0 < W then (m.getD r0 []).getD c0 0 else v) row 0
        else row) c2 0).getD r [] = [] :=
      getD_eq_default_of_le _ _ (by rw [length_mapWithIdx]; omega)
    have h2 : c2.getD r [] = ([] : List ℤ) := getD_eq_default_of_le _ _ (by omega)
    rw [h1, h2]

theorem canvasCell_writeDets_out (canvas : List (List (List ℤ))) (s n H W : Nat)
    (pm : List (List (List ℤ))) (d r c : Nat) (hd : d < s ∨ s + n ≤ d) :
    canvasCell (writeDets canvas s n H W pm) d r c = canvasCell canvas d r c := by
  unfold canvasCell writeDets
  by_cases hdl : d < canvas.length
  · rw [getD_mapWithIdx _ _ _ _ _ hdl, Nat.zero_add, if_neg (by omega)]
  · have h1 : (mapWithIdx (fun d0 c20 =>
        if s ≤ d0 ∧ d0 < s + n then setRegion c20 H W (pm.getD (d0 - s) []) else c20)
        canvas 0).getD d [] = [] :=
      getD_eq_default_of_le _ _ (by rw [length_mapWithIdx]; omega)
    have h2 : canvas.getD d [] = ([] : List (List ℤ)) :=
      getD_eq_default_of_le _ _ (by omega)
    rw [h1, h2]

theorem canvasCell_writeDets_region_out (canvas : List (List (List ℤ)))
    (s n H W : Nat) (pm : List (List (List ℤ))) (d r c : Nat)
    (hd1 : s ≤ d) (hd2 : d < s + n) (hrc : H ≤ r ∨ W ≤ c) :
    canvasCell (writeDets canvas s n H W pm) d r c = canvasCell canvas d r c := by
  unfold canvasCell writeDets
  by_cases hdl : d < canvas.length
  · rw [getD_mapWithIdx _ _ _ _ _ hdl, Nat.zero_add, if_pos ⟨hd1, hd2⟩]
    exact setRegion_cell_out _ _ _ _ _ _ hrc
  · have h1 : (mapWithIdx (fun d0 c20 =>
        if s ≤ d0 ∧ d0 < s + n then setRegion c20 H W (pm.getD (d0 - s) []) else c20)
        canvas 0).getD d [] = [] :=
      getD_eq_default_of_le _ _ (by rw [length_mapWithIdx]; omega)
    have h2 : canvas.getD d [] = ([] : List (List ℤ)) :=
      getD_eq_default_of_le _ _ (by omega)
    rw [h1, h2]

theorem maskLoopAux_cell_out
    (pasteFn : List (List (List ℚ)) → List Det6 → Nat → Nat → List (List (List ℚ)))
    (thr : ℚ) (mask_out : List (List (List ℚ))) (bboxes : List Det6) :
    ∀ (zipped : List (Nat × Nat × Nat)) (s : Nat) (canvas : List (List (List ℤ)))
      (d r c : Nat), (d < s ∨ s + (zipped.map (fun x => x.1)).sum ≤ d) →
    canvasCell (maskLoopAux pasteFn thr mask_out bboxes zipped s canvas) d r c
      = canvasCell canvas d r c := by
  intro zipped
  induction zipped with
  | nil => intro s canvas d r c _; rfl
  | cons hd0 rest ih =>
    intro s canvas d r c hdisj
    obtain ⟨n, h, w⟩ := hd0
    simp only [List.map_cons, List.sum_cons] at hdisj
    simp only [maskLoopAux]
    rw [ih (s + n) _ d r c (by omega)]
    exact canvasCell_writeDets_out _ _ _ _ _ _ _ _ _ (by omega)

theorem maskLoopAux_frame
    (pasteFn : List (List (List ℚ)) → List Det6 → Nat → Nat → List (List (List ℚ)))
    (thr : ℚ) (mask_out : List (List (List ℚ))) (bboxes : List Det6) :
    ∀ (zipped : List (Nat × Nat × Nat)) (s : Nat) (canvas : List (List (List ℤ)))
      (i k r c : Nat), i < zipped.length → k < (zipped.getD i (0, 0, 0)).1 →
      ((zipped.getD i (0, 0, 0)).2.1 ≤ r ∨ (zipped.getD i (0, 0, 0)).2.2 ≤ c) →
    canvasCell (maskLoopAux pasteFn thr mask_out bboxes zipped s canvas)
        (s + ((zipped.take i).map (fun x => x.1)).sum + k) r c
      = canvasCell canvas (s + ((zipped.take i).map (fun x => x.1)).sum + k) r c := by
  intro zipped
  induction zipped with
  | nil => intro s canvas i k r c hi; simp at hi
  | cons hd0 rest ih =>
    intro s canvas i k r c hi hk hrc
    obtain ⟨n, h, w⟩ := hd0
    cases i with
    | zero =>
      simp only [List.take_zero, List.map_nil, List.sum_nil, Nat.add_zero] at *
      simp only [List.getD_cons_zero] at hk hrc
      simp only [maskLoopAux]
      rw [maskLoopAux_cell_out pasteFn thr mask_out bboxes rest (s + n) _ _ _ _
        (Or.inl (by omega))]
      exact canvasCell_writeDets_region_out _ _ _ _ _ _ _ _ _
        (by omega) (by omega) hrc
    | succ i' =>
      simp only [List.getD_cons_succ] at hk hrc
      simp only [List.take_succ_cons, List.map_cons, List.sum_cons]
      have harith : s + (n + ((rest.take i').map (fun x => x.1)).sum) + k
          = (s + n) + ((rest.take i').map (fun x => x.1)).sum + k := by omega
      rw [harith]
      simp only [maskLoopAux]
      rw [ih (s + n) _ i' k r c (by simpa using hi) hk hrc]
      exact canvasCell_writeDets_out _ _ _ _ _ _ _ _ _ (Or.inr (by omega))

theorem canvasCell_initCanvas {numMask maxH maxW d r c : Nat}
    (hd : d < numMask) (hr : r < maxH) (hc : c < maxW) :
    canvasCell (initCanvas numMask maxH maxW) d r c = -1 := by
  unfold canvasCell initCanvas
  have h1 : (List.replicate numMask
        (List.replicate maxH (List.replicate maxW (-1 : ℤ)))).getD d []
      = List.replicate maxH (List.replicate maxW (-1 : ℤ)) := by
    rw [List.getD_eq_getElem _ _ (by simpa using hd), List.getElem_replicate]
  rw [h1]
  have h2 : (List.replicate maxH (List.replicate maxW (-1 : ℤ))).getD r []
      = List.replicate maxW (-1 : ℤ) := by
    rw [List.getD_eq_getElem _ _ (by simpa using hr), List.getElem_replicate]
  rw [h2]
  rw [List.getD_eq_getElem _ _ (by simpa using hc), List.getElem_replicate]

theorem take_sum_getD_le {cnts : List Nat} {i : Nat} (hi : i < cnts.length) :
    (cnts.take i).sum + cnts.getD i 0 ≤ cnts.sum := by
  induction cnts generalizing i with
  | nil => simp at hi
  | cons n rest ih =>
    cases i with
    | zero => simp
    | succ i' =>
      simp only [List.take_succ_cons, List.sum_cons, List.getD_cons_succ]
      have := ih (by simpa using hi)
      omega

theorem zipped_take_map_fst (A : List Nat) (B : List (Nat × Nat)) :
    ∀ i, i ≤ A.length → A.length = B.length →
      ((List.zipWith (fun n hw => (n, hw.1, hw.2)) A B).take i).map
        (fun x : Nat × Nat × Nat => x.1) = A.take i := by
  induction A generalizing B with
  | nil => intro i hi _; simp at hi; simp [hi]
  | cons n A' ih =>
    intro i hi hAB
    cases B with
    | nil => simp at hAB
    | cons hw B' =>
      cases i with
      | zero => simp
      | succ i' =>
        simp only [List.zipWith_cons_cons, List.take_succ_cons, List.map_cons]
        rw [ih B' i' (by simpa using hi) (by simpa using hAB)]

theorem zipped_getD (A : List Nat) (B : List (Nat × Nat)) {i : Nat}
    (hi : i < A.length) (hAB : A.length = B.length) :
    (List.zipWith (fun n hw => (n, hw.1, hw.2)) A B).getD i (0, 0, 0)
      = (A.getD i 0, (B.getD i (0, 0)).1, (B.getD i (0, 0)).2) := by
  have hiz : i < (List.zipWith (fun n hw => (n, hw.1, hw.2)) A B).length := by
    rw [List.length_zipWith]
    omega
  rw [List.getD_eq_getElem _ _ hiz, List.getElem_zipWith,
    List.getD_eq_getElem _ _ hi, List.getD_eq_getElem _ _ (by omega)]

/-- **C8**: in the batched path of `MaskPostProcess.__call__`, the
per-detection canvas of shape `(max h, max w)` over the batch starts out
entirely `-1`, and each detection's binarized mask is written only into the
`[0:H, 0:W]` region of its own image's shape `(H, W)`: every canvas pixel of
a detection of image `i` at row `≥ H_i` or column `≥ W_i` still holds the
sentinel `-1` after the loop. -/
theorem maskPostBatched_frame
    (pasteFn : List (List (List ℚ)) → List Det6 → Nat → Nat → List (List (List ℚ)))
    (binary_thresh : ℚ) (mask_out : List (List (List ℚ))) (bboxes : List Det6)
    (bbox_num : List Nat) (origin_shape : List (Nat × Nat))
    (hlen : origin_shape.length = bbox_num.length)
    (hsum : bbox_num.sum = mask_out.length) :
    (∀ d r c, d < mask_out.length →
      r < (origin_shape.map Prod.fst).foldl max 0 →
      c < (origin_shape.map Prod.snd).foldl max 0 →
      canvasCell (initCanvas mask_out.length
        ((origin_shape.map Prod.fst).foldl max 0)
        ((origin_shape.map Prod.snd).foldl max 0)) d r c = -1) ∧
    (∀ i, i < bbox_num.length → ∀ k, k < bbox_num.getD i 0 → ∀ r c,
      ((origin_shape.getD i (0, 0)).1 ≤ r ∨ (origin_shape.getD i (0, 0)).2 ≤ c) →
      r < (origin_shape.map Prod.fst).foldl max 0 →
      c < (origin_shape.map Prod.snd).foldl max 0 →
      canvasCell
        (maskPostBatched pasteFn binary_thresh mask_out bboxes bbox_num origin_shape)
        ((bbox_num.take i).sum + k) r c = -1) := by
  constructor
  · intro d r c hd hr hc
    exact canvasCell_initCanvas hd hr hc
  · intro i hi k hk r c hrc hr hc
    unfold maskPostBatched
    have hzlen : i < (List.zipWith (fun n hw => (n, hw.1, hw.2))
        bbox_num origin_shape).length := by
      rw [List.length_zipWith]
      omega
    have hget := zipped_getD bbox_num origin_shape hi hlen.symm
    have hframe := maskLoopAux_frame pasteFn binary_thresh mask_out bboxes
      (List.zipWith (fun n hw => (n, hw.1, hw.2)) bbox_num origin_shape) 0
      (initCanvas mask_out.length
        ((origin_shape.map Prod.fst).foldl max 0)
        ((origin_shape.map Prod.snd).foldl max 0))
      i k r c hzlen (by rw [hget]; exact hk) (by rw [hget]; exact hrc)
    rw [zipped_take_map_fst bbox_num origin_shape i (le_of_lt hi) hlen.symm] at hframe
    rw [Nat.zero_add] at hframe
    rw [hframe]
    apply canvasCell_initCanvas _ hr hc
    have := take_sum_getD_le hi
    omega

/-- Witness for C8: two images of shapes `(1,1)` and `(2,2)`; the first
image's detection keeps `-1` at row `1` (beyond its own height `1`) even
though the batch canvas is `2 × 2`. -/
theorem maskPostBatched_frame_witness :
    ([(1, 1), (2, 2)] : List (Nat × Nat)).length = ([1, 1] : List Nat).length ∧
    ([1, 1] : List Nat).sum = ([[[1]], [[1]]] : List (List (List ℚ))).length ∧
    canvasCell
      (maskPostBatched
        (fun ms _ h w => ms.map (fun _ => List.replicate h (List.replicate w (1 : ℚ))))
        (1/2) [[[1]], [[1]]] [⟨0, 1, 0, 0, 1, 1⟩, ⟨0, 1, 0, 0, 2, 2⟩]
        [1, 1] [(1, 1), (2, 2)])
      ((([1, 1] : List Nat).take 0).sum + 0) 1 0 = -1 := by
  refine ⟨by decide, by decide, ?_⟩
  exact (maskPostBatched_frame
    (fun ms _ h w => ms.map (fun _ => List.replicate h (List.replicate w (1 : ℚ))))
    (1/2) [[[1]], [[1]]] [⟨0, 1, 0, 0, 1, 1⟩, ⟨0, 1, 0, 0, 2, 2⟩]
    [1, 1] [(1, 1), (2, 2)] (by decide) (by decide)).2
    0 (by decide) 0 (by decide) 1 0 (Or.inl (by decide)) (by decide) (by decide)

end PostProc
